import Mathlib

/-!
Verification of the per-frame codec pipeline of `src/convert.py`.

The Python source is shallowly embedded: numpy 2-D arrays become lists of
rows (numpy arrays are rectangular, so raster iteration over
`range(h) × range(w)` visits exactly the elements of each row in order),
Python floats become rationals, `uint16` counters become naturals reduced
`% 65536` at each increment, and Python strings of `'0'`/`'1'` code bits
become `List Bool` (`false` = `'0'`, `true` = `'1'`).  Module-level
globals (`HEIGHT`, `WIDTH`, and the `frame` global read by
`convert_huffman`) are passed as explicit parameters.
-/

namespace Convert

/-- Constant `NUMCHARS = len(CHARSET)`, where `CHARSET = ' ,(S#g@'` has 7 characters. -/
def NUMCHARS : ℕ := 7

/-- The fixed brightness reference table `LEVELS` of `convert.py`,
as exact rationals. -/
def LEVELS : List ℚ := [0, 106/100, 2167/1000, 3036/1000, 3977/1000, 473/100, 6]

/-- Reading `g[y][x]` from a 2-D array embedded as a list of rows,
with a default for out-of-range indices. -/
def get2 {α : Type} (g : List (List α)) (y x : ℕ) (d : α) : α :=
  (g.getD y []).getD x d

/-- Writing `g[y][x] = v` (a no-op out of range, which never happens on the
in-range accesses performed by the source). -/
def set2 {α : Type} (g : List (List α)) (y x : ℕ) (v : α) : List (List α) :=
  g.set y ((g.getD y []).set x v)

/-- In-place `g[y][x] += v` as performed by the error-diffusion updates. -/
def addAt (g : List (List ℚ)) (y x : ℕ) (v : ℚ) : List (List ℚ) :=
  set2 g y x (get2 g y x 0 + v)

/-- Python `int(q)` truncates toward zero. -/
def pyInt (q : ℚ) : ℤ := q.num.tdiv q.den

/-- Lines 43-53 of `process_frame`: distribute `err16 = error/16` to the
four Floyd-Steinberg neighbours of cell `(y, x)`.  The guards are exactly
those of the source; note the below-left guard is `(x - 1) > 0` on Python
integers, not `(x - 1) >= 0`. -/
def diffuseError (H W : ℕ) (reduced : List (List ℚ)) (y x : ℕ) (err16 : ℚ) :
    List (List ℚ) :=
  let r1 := if x + 1 < W then addAt reduced y (x + 1) (7 * err16) else reduced
  if y + 1 < H then
    let r2 := addAt r1 (y + 1) x (5 * err16)
    let r3 := if x + 1 < W then addAt r2 (y + 1) (x + 1) (1 * err16) else r2
    if (x : ℤ) - 1 > 0 then addAt r3 (y + 1) (x - 1) (3 * err16) else r3
  else r1

/-- The body of the double loop of `process_frame` at cell `(y, x)`:
clamp and truncate to the discrete `level`, compute the quantization
error against `LEVELS[level]`, diffuse `error/16`, and store `level`. -/
def ditherCell (H W : ℕ) (st : List (List ℚ) × List (List ℤ)) (y x : ℕ) :
    List (List ℚ) × List (List ℤ) :=
  let v := get2 st.1 y x 0
  let level : ℤ := min 6 (max 0 (pyInt v))
  let error := v - LEVELS.getD level.toNat 0
  (diffuseError H W st.1 y x (error / 16), set2 st.2 y x level)

/-- Function `process_frame`, with the globals `HEIGHT` and `WIDTH` passed as
parameters `H` and `W`.  Returns the `out` array of discrete levels. -/
def process_frame (H W : ℕ) (scaled : List (List ℚ)) : List (List ℤ) :=
  let reduced := scaled.map (List.map (fun v => v * 6 / 255))
  let init := (reduced, List.replicate H (List.replicate W (0 : ℤ)))
  ((List.range H).foldl
    (fun st y => (List.range W).foldl (fun st x => ditherCell H W st y x) st)
    init).2

theorem getD_set_ne {α : Type} (l : List α) (i j : ℕ) (v d : α) (h : i ≠ j) :
    (l.set i v).getD j d = l.getD j d := by
  simp [List.getD_eq_getElem?_getD, List.getElem?_set, h]

theorem get2_set2_ne {α : Type} (g : List (List α)) (y x y' x' : ℕ) (v d : α)
    (h : y ≠ y' ∨ x ≠ x') : get2 (set2 g y x v) y' x' d = get2 g y' x' d := by
  rcases h with h | h
  · unfold get2 set2
    rw [getD_set_ne _ _ _ _ _ h]
  · unfold get2 set2
    by_cases hy : y = y'
    · subst hy
      by_cases hin : y < g.length
      · have h1 : (g.set y ((g.getD y []).set x v)).getD y [] = (g.getD y []).set x v := by
          rw [List.getD_eq_getElem?_getD, List.getElem?_set_self (by simpa using hin)]
          rfl
        rw [h1, getD_set_ne _ _ _ _ _ h]
      · have h1 : (g.set y ((g.getD y []).set x v)).getD y [] = ([] : List α) := by
          rw [List.getD_eq_getElem?_getD, List.getElem?_set, if_pos rfl, if_neg hin]
          rfl
        have h2 : g.getD y [] = ([] : List α) := by
          rw [List.getD_eq_getElem?_getD, List.getElem?_eq_none (Nat.le_of_not_lt hin)]
          rfl
        rw [h1, h2]
    · rw [getD_set_ne _ _ _ _ _ hy]

theorem get2_addAt_ne (g : List (List ℚ)) (y x y' x' : ℕ) (v : ℚ)
    (h : y ≠ y' ∨ x ≠ x') : get2 (addAt g y x v) y' x' 0 = get2 g y' x' 0 :=
  get2_set2_ne g y x y' x' _ 0 h

/-- C4: the claim says a diffusion target is skipped exactly when it is out of
grid bounds, so every cell with `x ≥ 1` and `y + 1 < HEIGHT` should receive the
`3/16` below-left share from its upper-right neighbour.  The code checks
`(x - 1) > 0` instead of `(x - 1) >= 0`, so a cell at `x = 1` never sends its
below-left share to the in-bounds cell `(y + 1, 0)`: the grid entry at
`(y + 1, 0)` is left unchanged by the diffusion step of cell `(y, 1)`, and in
particular it differs from the value the claim requires whenever the error
share is nonzero. -/
theorem diffuse_below_left_skipped_at_x1 (H W : ℕ) (g : List (List ℚ)) (y : ℕ)
    (e : ℚ) (hH : y + 1 < H) (hW : 1 < W) (he : e ≠ 0) :
    get2 (diffuseError H W g y 1 e) (y + 1) 0 0 = get2 g (y + 1) 0 0 ∧
    get2 (diffuseError H W g y 1 e) (y + 1) 0 0 ≠ get2 g (y + 1) 0 0 + 3 * e := by
  have hmain : get2 (diffuseError H W g y 1 e) (y + 1) 0 0 = get2 g (y + 1) 0 0 := by
    unfold diffuseError
    split_ifs with h1 h2 h3 h4 <;>
      first
        | rfl
        | omega
        | (repeat rw [get2_addAt_ne _ _ _ _ _ _ (by omega)])
  refine ⟨hmain, ?_⟩
  rw [hmain]
  intro hc
  have h3 : (3 : ℚ) * e ≠ 0 := by
    exact mul_ne_zero (by norm_num) he
  exact h3 (by linarith)

/-- Witness for `diffuse_below_left_skipped_at_x1` at a concrete 2×3 grid:
cell `(0, 1)` with a nonzero error share leaves the in-bounds below-left
cell `(1, 0)` untouched. -/
theorem diffuse_below_left_skipped_at_x1_witness :
    get2 (diffuseError 2 3 [[0, 0, 0], [0, 0, 0]] 0 1 1) (0 + 1) 0 0 =
      get2 [[0, 0, 0], [0, 0, 0]] (0 + 1) 0 0 ∧
    get2 (diffuseError 2 3 [[0, 0, 0], [0, 0, 0]] 0 1 1) (0 + 1) 0 0 ≠
      get2 [[0, 0, 0], [0, 0, 0]] (0 + 1) 0 0 + 3 * 1 :=
  diffuse_below_left_skipped_at_x1 2 3 [[0, 0, 0], [0, 0, 0]] 0 1
    (by norm_num) (by norm_num) (by norm_num)

/-! ### Transition Modeler (`compute_markov`) -/

/-- Increment `l[i] += 1` on a `uint16` numpy vector: the increment wraps at `2 ^ 16`. -/
def incrMod (l : List ℕ) (i : ℕ) : List ℕ :=
  l.set i ((l.getD i 0 + 1) % 65536)

/-- Increment `mat[i][j] += 1` on the 7×7 `uint16` transition matrix. -/
def incr2 (m : List (List ℕ)) (i j : ℕ) : List (List ℕ) :=
  m.set i (incrMod (m.getD i []) j)

/-- Pass 1 of `compute_markov`: raster-scan the frame threading `prevChar`
(initially `0`) and count transitions into the 7×7 matrix. -/
def transitionPass (frame : List (List ℕ)) : List (List ℕ) × ℕ :=
  frame.foldl
    (fun st row => row.foldl (fun (st : List (List ℕ) × ℕ) c => (incr2 st.1 st.2 c, c)) st)
    (List.replicate NUMCHARS (List.replicate NUMCHARS 0), 0)

/-- Numpy `mat[i].argsort()`: the indices `0..6` ordered by ascending count.
Numpy's argsort returns some permutation of the indices sorting the counts
ascending; we realise it with a stable insertion sort (ties keep ascending
index order). -/
def argsort (c : List ℕ) : List ℕ :=
  List.insertionSort (fun i j => c.getD i 0 ≤ c.getD j 0) (List.range c.length)

/-- The numpy fancy assignment `ranks[i][mat[i].argsort()] = 6 - np.arange(7)`:
position `idxs[j]` of the row receives value `6 - j`. -/
def scatterRanks (row : List ℕ) : List ℕ → ℕ → List ℕ
  | [], _ => row
  | p :: rest, j => scatterRanks (row.set p (6 - j)) rest (j + 1)

/-- One row of the Rank Matrix, from the corresponding transition-count row. -/
def rankRow (cs : List ℕ) : List ℕ :=
  scatterRanks (List.replicate NUMCHARS 0) (argsort cs) 0

/-- Pass 2 of `compute_markov` over one row of the frame: remap every pixel to
`ranks[prevChar][char]`, incrementing the `uint16` histogram `cnt`. -/
def pass2Row (ranks : List (List ℕ)) : List ℕ → List ℕ → ℕ → List ℕ × List ℕ × ℕ
  | [], cnt, prev => ([], cnt, prev)
  | c :: cs, cnt, prev =>
    let r := (ranks.getD prev []).getD c 0
    let rest := pass2Row ranks cs (incrMod cnt r) c
    (r :: rest.1, rest.2)

/-- Pass 2 of `compute_markov`: raster scan with its own `prevChar` state,
re-initialised to `0`. -/
def pass2 (ranks : List (List ℕ)) : List (List ℕ) → List ℕ → ℕ → List (List ℕ) × List ℕ × ℕ
  | [], cnt, prev => ([], cnt, prev)
  | row :: rows, cnt, prev =>
    let r1 := pass2Row ranks row cnt prev
    let r2 := pass2 ranks rows r1.2.1 r1.2.2
    (r1.1 :: r2.1, r2.2)

/-- Function `compute_markov`: returns the rank-symbol frame `out`, the Rank Matrix
`ranks` and the histogram `cnt`. -/
def compute_markov (frame : List (List ℕ)) :
    List (List ℕ) × List (List ℕ) × List ℕ :=
  let mat := (transitionPass frame).1
  let ranks := (List.range NUMCHARS).map (fun i => rankRow (mat.getD i []))
  let p := pass2 ranks frame (List.replicate NUMCHARS 0) 0
  (p.1, ranks, p.2.1)

theorem getD_set_self {α : Type} (l : List α) (i : ℕ) (v d : α) (h : i < l.length) :
    (l.set i v).getD i d = v := by
  rw [List.getD_eq_getElem?_getD, List.getElem?_set_self h]
  rfl

theorem scatterRanks_length (idxs : List ℕ) (row : List ℕ) (j : ℕ) :
    (scatterRanks row idxs j).length = row.length := by
  induction idxs generalizing row j with
  | nil => rfl
  | cons p rest ih => simp [scatterRanks, ih]

theorem scatterRanks_getD_not_mem (idxs : List ℕ) (row : List ℕ) (j p d : ℕ)
    (hp : p ∉ idxs) : (scatterRanks row idxs j).getD p d = row.getD p d := by
  induction idxs generalizing row j with
  | nil => rfl
  | cons q rest ih =>
    simp only [List.mem_cons, not_or] at hp
    simp only [scatterRanks]
    rw [ih _ _ hp.2, getD_set_ne _ _ _ _ _ (fun h => hp.1 h.symm)]

theorem scatterRanks_getD_mem (idxs : List ℕ) (row : List ℕ) (j k : ℕ)
    (hnd : idxs.Nodup) (hk : k < idxs.length) (hlt : idxs.getD k 0 < row.length) :
    (scatterRanks row idxs j).getD (idxs.getD k 0) 0 = 6 - (j + k) := by
  induction idxs generalizing row j k with
  | nil => simp at hk
  | cons q rest ih =>
    rcases List.nodup_cons.mp hnd with ⟨hq, hndr⟩
    cases k with
    | zero =>
      have hq0 : (q :: rest).getD 0 0 = q := rfl
      rw [hq0] at hlt ⊢
      simp only [scatterRanks]
      rw [scatterRanks_getD_not_mem rest _ _ q _ hq, getD_set_self _ _ _ _ hlt]
      omega
    | succ k' =>
      have hk' : (q :: rest).getD (k' + 1) 0 = rest.getD k' 0 := rfl
      rw [hk'] at hlt ⊢
      simp only [scatterRanks]
      have := ih (row.set q (6 - j)) (j + 1) k' hndr (by simpa using hk)
        (by simpa using hlt)
      rw [this]
      omega

theorem argsort_perm (cs : List ℕ) : (argsort cs).Perm (List.range cs.length) :=
  List.perm_insertionSort _ _

/-- Every row produced by `rankRow` from a length-7 count row is a permutation
of `0..6`. -/
theorem rankRow_perm (cs : List ℕ) (h7 : cs.length = 7) :
    (rankRow cs).Perm (List.range 7) := by
  have hA : (argsort cs).Perm (List.range 7) := by
    have := argsort_perm cs
    rwa [h7] at this
  have hAnd : (argsort cs).Nodup := hA.nodup_iff.mpr (List.nodup_range 7)
  have hAlen : (argsort cs).length = 7 := hA.length_eq.trans (List.length_range 7)
  have hAmem : ∀ p, p ∈ argsort cs ↔ p < 7 := fun p => hA.mem_iff.trans List.mem_range
  have hllen : (rankRow cs).length = 7 := by
    unfold rankRow
    rw [scatterRanks_length]
    simp [NUMCHARS]
  have hkey : ∀ k, k < 7 → (rankRow cs).getD ((argsort cs).getD k 0) 0 = 6 - k := by
    intro k hk
    unfold rankRow
    have := scatterRanks_getD_mem (argsort cs) (List.replicate NUMCHARS 0) 0 k hAnd
      (by omega)
      (by
        rw [List.length_replicate]
        have : (argsort cs).getD k 0 ∈ argsort cs := by
          rw [List.getD_eq_getElem _ _ (by omega)]
          exact List.getElem_mem _
        exact (hAmem _).mp this)
    simpa using this
  have hsub : List.range 7 ⊆ rankRow cs := by
    intro v hv
    rw [List.mem_range] at hv
    have hk7 : 6 - v < 7 := by omega
    have hpmem : (argsort cs).getD (6 - v) 0 ∈ argsort cs := by
      rw [List.getD_eq_getElem _ _ (by omega)]
      exact List.getElem_mem _
    have hplt : (argsort cs).getD (6 - v) 0 < 7 := (hAmem _).mp hpmem
    have hval : (rankRow cs).getD ((argsort cs).getD (6 - v) 0) 0 = v := by
      rw [hkey (6 - v) hk7]
      omega
    rw [← hval, List.getD_eq_getElem _ _ (by omega)]
    exact List.getElem_mem _
  have hsp : (List.range 7).Subperm (rankRow cs) :=
    List.subperm_of_subset (List.nodup_range 7) hsub
  exact (hsp.perm_of_length_le (by rw [hllen]; simp)).symm

/-- Shape invariant of the 7×7 transition matrix. -/
def MatShape (m : List (List ℕ)) : Prop :=
  m.length = 7 ∧ ∀ i, i < 7 → (m.getD i []).length = 7

theorem incr2_shape (m : List (List ℕ)) (i j : ℕ) (h : MatShape m) :
    MatShape (incr2 m i j) := by
  obtain ⟨hlen, hrows⟩ := h
  refine ⟨by simpa [incr2] using hlen, ?_⟩
  intro i' hi'
  by_cases hii : i = i'
  · subst hii
    unfold incr2
    rw [getD_set_self _ _ _ _ (by omega)]
    unfold incrMod
    rw [List.length_set]
    exact hrows i hi'
  · unfold incr2
    rw [getD_set_ne _ _ _ _ _ hii]
    exact hrows i' hi'

theorem pass1_row_shape (row : List ℕ) (st : List (List ℕ) × ℕ) (h : MatShape st.1) :
    MatShape (row.foldl (fun (st : List (List ℕ) × ℕ) c => (incr2 st.1 st.2 c, c)) st).1 := by
  induction row generalizing st with
  | nil => exact h
  | cons c cs ih => exact ih _ (incr2_shape _ _ _ h)

theorem transitionPass_shape (frame : List (List ℕ)) :
    MatShape (transitionPass frame).1 := by
  unfold transitionPass
  have hinit : MatShape (List.replicate NUMCHARS (List.replicate NUMCHARS 0), 0).1 := by
    constructor
    · simp [NUMCHARS]
    · intro i hi
      rw [List.getD_eq_getElem _ _ (by simp only [List.length_replicate]; exact hi),
        List.getElem_replicate]
      simp [NUMCHARS]
  generalize (List.replicate NUMCHARS (List.replicate NUMCHARS (0 : ℕ)), (0 : ℕ)) = st at hinit ⊢
  induction frame generalizing st with
  | nil => exact hinit
  | cons row rows ih => exact ih _ (pass1_row_shape row st hinit)

theorem rank_rows_perm (frame : List (List ℕ)) :
    ∀ row ∈ (compute_markov frame).2.1, row.Perm (List.range 7) := by
  intro row hrow
  unfold compute_markov at hrow
  simp only [List.mem_map] at hrow
  obtain ⟨i, hi, hrow⟩ := hrow
  subst hrow
  apply rankRow_perm
  exact (transitionPass_shape frame).2 i (by
    simpa [NUMCHARS] using List.mem_range.mp hi)

/-- C5: for every input frame, every row of the Rank Matrix returned by
`compute_markov` is a permutation of `0..6`: each of the seven rank values
appears exactly once, with no duplicates and no gaps. -/
theorem compute_markov_rank_rows_perm (frame : List (List ℕ)) :
    ∀ row ∈ (compute_markov frame).2.1, row.Perm (List.range 7) :=
  rank_rows_perm frame

/-- Witness for `compute_markov_rank_rows_perm`: the first Rank Matrix row of
the frame `[[0, 1], [2, 3]]` is a permutation of `0..6`. -/
theorem compute_markov_rank_rows_perm_witness :
    ((compute_markov [[0, 1], [2, 3]]).2.1.getD 0 []) ∈
      (compute_markov [[0, 1], [2, 3]]).2.1 ∧
    ((compute_markov [[0, 1], [2, 3]]).2.1.getD 0 []).Perm (List.range 7) :=
  ⟨by decide,
    compute_markov_rank_rows_perm [[0, 1], [2, 3]]
      ((compute_markov [[0, 1], [2, 3]]).2.1.getD 0 []) (by decide)⟩

theorem perm_range7_getD_lt (row : List ℕ) (h : row.Perm (List.range 7)) (c : ℕ) :
    row.getD c 0 < 7 := by
  by_cases hc : c < row.length
  · have : row.getD c 0 ∈ row := by
      rw [List.getD_eq_getElem _ _ hc]
      exact List.getElem_mem _
    exact List.mem_range.mp (h.mem_iff.mp this)
  · rw [List.getD_eq_getElem?_getD, List.getElem?_eq_none (Nat.le_of_not_lt hc)]
    norm_num

theorem markov_ranks_getD_lt (frame : List (List ℕ)) (p c : ℕ) :
    (((compute_markov frame).2.1).getD p []).getD c 0 < 7 := by
  by_cases hp : p < 7
  · have hlen : ((compute_markov frame).2.1).length = 7 := by
      unfold compute_markov
      simp [NUMCHARS]
    have hmem : ((compute_markov frame).2.1).getD p [] ∈ (compute_markov frame).2.1 := by
      rw [List.getD_eq_getElem _ _ (by omega)]
      exact List.getElem_mem _
    exact perm_range7_getD_lt _ (rank_rows_perm frame _ hmem) c
  · have hlen : ((compute_markov frame).2.1).length = 7 := by
      unfold compute_markov
      simp [NUMCHARS]
    have hnone : ((compute_markov frame).2.1).getD p [] = [] := by
      rw [List.getD_eq_getElem?_getD, List.getElem?_eq_none (by omega)]
      rfl
    rw [hnone]
    norm_num

theorem sum_set_incr (l : List ℕ) (i : ℕ) (h : i < l.length) :
    (l.set i (l.getD i 0 + 1)).sum = l.sum + 1 := by
  induction l generalizing i with
  | nil => simp at h
  | cons a as ih =>
    cases i with
    | zero => simp [List.getD]; omega
    | succ i' =>
      have := ih i' (by simpa using h)
      simp only [List.set, List.sum_cons]
      rw [show (a :: as).getD (i' + 1) 0 = as.getD i' 0 from rfl, this]
      omega

theorem le_sum_nat (l : List ℕ) (x : ℕ) (hx : x ∈ l) : x ≤ l.sum :=
  List.single_le_sum (fun y _ => Nat.zero_le y) x hx

theorem incrMod_sum (cnt : List ℕ) (r : ℕ) (hr : r < cnt.length)
    (hb : cnt.sum + 1 < 65536) :
    (incrMod cnt r).sum = cnt.sum + 1 ∧ (incrMod cnt r).length = cnt.length := by
  have hentry : cnt.getD r 0 ≤ cnt.sum := by
    apply le_sum_nat
    rw [List.getD_eq_getElem _ _ hr]
    exact List.getElem_mem _
  have hmod : (cnt.getD r 0 + 1) % 65536 = cnt.getD r 0 + 1 :=
    Nat.mod_eq_of_lt (by omega)
  unfold incrMod
  rw [hmod]
  exact ⟨sum_set_incr cnt r hr, List.length_set _ _ _⟩

theorem pass2Row_cnt (ranks : List (List ℕ))
    (hrk : ∀ p c, (ranks.getD p []).getD c 0 < 7) (cs : List ℕ) :
    ∀ (cnt : List ℕ) (prev : ℕ), cnt.length = 7 → cnt.sum + cs.length < 65536 →
    (pass2Row ranks cs cnt prev).2.1.sum = cnt.sum + cs.length ∧
    (pass2Row ranks cs cnt prev).2.1.length = 7 := by
  induction cs with
  | nil => intro cnt prev hlen _; exact ⟨by simp [pass2Row], hlen⟩
  | cons c cs ih =>
    intro cnt prev hlen hb
    have hr : (ranks.getD prev []).getD c 0 < 7 := hrk prev c
    have hstep := incrMod_sum cnt ((ranks.getD prev []).getD c 0) (by omega) (by simp at hb; omega)
    have := ih (incrMod cnt ((ranks.getD prev []).getD c 0)) c
      (hstep.2.trans hlen) (by rw [hstep.1]; simp at hb ⊢; omega)
    simp only [pass2Row]
    refine ⟨?_, this.2⟩
    rw [this.1, hstep.1]
    simp
    omega

theorem pass2_cnt (ranks : List (List ℕ))
    (hrk : ∀ p c, (ranks.getD p []).getD c 0 < 7) (rows : List (List ℕ)) :
    ∀ (cnt : List ℕ) (prev : ℕ), cnt.length = 7 →
    cnt.sum + (rows.map List.length).sum < 65536 →
    (pass2 ranks rows cnt prev).2.1.sum = cnt.sum + (rows.map List.length).sum ∧
    (pass2 ranks rows cnt prev).2.1.length = 7 := by
  induction rows with
  | nil => intro cnt prev hlen _; exact ⟨by simp [pass2], hlen⟩
  | cons row rows ih =>
    intro cnt prev hlen hb
    simp only [List.map_cons, List.sum_cons] at hb
    have hrow := pass2Row_cnt ranks hrk row cnt prev hlen (by omega)
    have := ih (pass2Row ranks row cnt prev).2.1 (pass2Row ranks row cnt prev).2.2
      hrow.2 (by rw [hrow.1]; omega)
    simp only [pass2]
    refine ⟨?_, this.2⟩
    rw [this.1, hrow.1]
    simp
    omega

/-- C6: for every rectangular `height × width` input frame with
`width * height` below the `uint16` capacity (as every frame of the program
is: the configured frame size is 80 × 22 = 1760 pixels), the 7-entry
histogram returned by `compute_markov` sums to exactly `width * height`:
each pixel contributes exactly one count. -/
theorem compute_markov_histogram_sum (frame : List (List ℕ)) (w : ℕ)
    (hrect : ∀ row ∈ frame, row.length = w)
    (hsize : frame.length * w < 65536) :
    ((compute_markov frame).2.2).sum = frame.length * w := by
  have htot : (frame.map List.length).sum = frame.length * w := by
    have : frame.map List.length = List.replicate frame.length w := by
      refine List.eq_replicate.mpr ⟨by simp, ?_⟩
      intro x hx
      obtain ⟨row, hrow, hlx⟩ := List.mem_map.mp hx
      rw [← hlx]
      exact hrect row hrow
    rw [this, List.sum_replicate, smul_eq_mul]
  have hranks : ∀ p c,
      ((((compute_markov frame).2.1)).getD p []).getD c 0 < 7 :=
    markov_ranks_getD_lt frame
  have hmain := pass2_cnt ((compute_markov frame).2.1) hranks frame
    (List.replicate NUMCHARS 0) 0 (by simp [NUMCHARS])
    (by rw [htot]; simpa [NUMCHARS] using hsize)
  have hcnt : (compute_markov frame).2.2 =
      (pass2 ((compute_markov frame).2.1) frame (List.replicate NUMCHARS 0) 0).2.1 := by
    conv_lhs => unfold compute_markov
    conv_rhs => unfold compute_markov
  rw [hcnt, hmain.1, htot]
  simp [NUMCHARS]

/-- Witness for `compute_markov_histogram_sum` at the concrete 2×2 frame
`[[0, 1], [2, 3]]`: the histogram sums to 4. -/
theorem compute_markov_histogram_sum_witness :
    (∀ row ∈ [[0, 1], [2, 3]], row.length = 2) ∧
    (([[0, 1], [2, 3]] : List (List ℕ)).length * 2 < 65536) ∧
    ((compute_markov [[0, 1], [2, 3]]).2.2).sum =
      ([[0, 1], [2, 3]] : List (List ℕ)).length * 2 :=
  ⟨by decide, by decide,
    compute_markov_histogram_sum [[0, 1], [2, 3]] 2 (by decide) (by decide)⟩

/-! ### Huffman Coder (`compute_huffman`)

Working-list entries are the Python tuples `(count, member symbols, node id)`.
Code strings of `'0'`/`'1'` are `List Bool` with `false = '0'`, `true = '1'`.
The counts arrive as numpy `uint16` values; their sums in the merge loop stay
below `2 ^ 16` for every frame of the program (at most 80 × 22 = 1760 total),
so they are modelled as naturals. -/

abbrev Entry : Type := ℕ × List ℕ × ℕ

/-- Python lexicographic `<` on lists of integers. -/
def listLtB : List ℕ → List ℕ → Bool
  | [], [] => false
  | [], _ :: _ => true
  | _ :: _, [] => false
  | a :: as, b :: bs => if a < b then true else if b < a then false else listLtB as bs

/-- Python lexicographic `<` on the `(count, members, id)` tuples that
`sorted` compares. -/
def entryLtB (a b : Entry) : Bool :=
  if a.1 < b.1 then true
  else if b.1 < a.1 then false
  else if listLtB a.2.1 b.2.1 then true
  else if listLtB b.2.1 a.2.1 then false
  else decide (a.2.2 < b.2.2)

/-- Python `sorted(sizes, reverse=True)`: a stable sort with every
comparison reversed, realised as a stable insertion sort keeping `a` before
`b` whenever `not (a < b)`.  The tuples compared here always carry distinct
node ids, so the tuple order is total with no genuine ties and every
descending sort produces the same list Python's does. -/
def sortDesc (xs : List Entry) : List Entry :=
  List.insertionSort (fun a b => entryLtB a b = false) xs

/-- The loop `for char in chars: codes[char] = bit + codes[char]`. -/
def prependToCodes (b : Bool) (chars : List ℕ) (codes : List (List Bool)) :
    List (List Bool) :=
  chars.foldl (fun cs ch => cs.set ch (b :: cs.getD ch [])) codes

/-- The linear re-insertion scan of `compute_huffman`: place the merged entry
before the first entry whose count is `<=` the merged count, or at the end. -/
def insertEntry (new : Entry) : List Entry → List Entry
  | [] => [new]
  | e :: rest => if e.1 ≤ new.1 then new :: e :: rest else e :: insertEntry new rest

theorem insertEntry_length (new : Entry) (l : List Entry) :
    (insertEntry new l).length = l.length + 1 := by
  induction l with
  | nil => rfl
  | cons e rest ih =>
    unfold insertEntry
    by_cases h : e.1 ≤ new.1
    · simp [h]
    · simp [h, ih]

/-- The body of the `while len(sizes) > 1` merge loop of `compute_huffman`,
with an explicit structural fuel: pop the last entry (`right`), then the new
last entry (`left`), append the internal tree node `(left.id, right.id)`,
prepend `'0'` to the codes of `left`'s members and `'1'` to those of
`right`'s members, and re-insert the merged entry.  Each iteration shrinks
the working list by exactly one, so fuel equal to the list length always
outlasts the loop and the fuel-exhausted case is unreachable. -/
def huffLoopF : ℕ → List (List Bool) → List (ℕ × ℕ) → List Entry →
    List (List Bool) × List (ℕ × ℕ)
  | 0, codes, tree, _ => (codes, tree)
  | fuel + 1, codes, tree, sizes =>
    match sizes with
    | [] => (codes, tree)
    | [_] => (codes, tree)
    | e₁ :: e₂ :: rest =>
      let s := e₁ :: e₂ :: rest
      let right := s.getLastD (0, [], 0)
      let s1 := s.dropLast
      let left := s1.getLastD (0, [], 0)
      let sizes' := s1.dropLast
      let tree' := tree ++ [(left.2.2, right.2.2)]
      let codes' := prependToCodes true right.2.1 (prependToCodes false left.2.1 codes)
      let new : Entry := (left.1 + right.1, left.2.1 ++ right.2.1, tree.length)
      huffLoopF fuel codes' tree' (insertEntry new sizes')

/-- The merge loop of `compute_huffman`, entered with fuel equal to the
working-list length. -/
def huffLoop (codes : List (List Bool)) (tree : List (ℕ × ℕ)) (sizes : List Entry) :
    List (List Bool) × List (ℕ × ℕ) :=
  huffLoopF sizes.length codes tree sizes

/-- Function `compute_huffman`: seed one entry, one empty code and one leaf tree node
per rank-symbol, sort the entries descending, and run the merge loop.
Returns `(codes, tree)`. -/
def compute_huffman (cnts : List ℕ) : List (List Bool) × List (ℕ × ℕ) :=
  let codes := List.replicate cnts.length ([] : List Bool)
  let sizes := (List.range cnts.length).map (fun i => ((cnts.getD i 0, [i], i) : Entry))
  let tree := (List.range cnts.length).map (fun i => (i, i))
  huffLoop codes tree (sortDesc sizes)

/-- Function `encode_tree`: drop the `len(CHARSET) = 7` leaf entries and emit one byte
`l * 16 + r` per internal node. -/
def encode_tree (tree : List (ℕ × ℕ)) : List ℕ :=
  (tree.drop NUMCHARS).map (fun p => p.1 * 16 + p.2)

theorem prependToCodes_length (b : Bool) (chars : List ℕ) (codes : List (List Bool)) :
    (prependToCodes b chars codes).length = codes.length := by
  induction chars generalizing codes with
  | nil => rfl
  | cons ch rest ih =>
    unfold prependToCodes at ih ⊢
    simp only [List.foldl_cons]
    rw [ih]
    exact List.length_set _ _ _

theorem prependToCodes_getD_not_mem (b : Bool) (chars : List ℕ)
    (codes : List (List Bool)) (s : ℕ) (hs : s ∉ chars) :
    (prependToCodes b chars codes).getD s [] = codes.getD s [] := by
  induction chars generalizing codes with
  | nil => rfl
  | cons ch rest ih =>
    simp only [List.mem_cons, not_or] at hs
    unfold prependToCodes at ih ⊢
    simp only [List.foldl_cons]
    rw [ih _ hs.2, getD_set_ne _ _ _ _ _ (fun h => hs.1 h.symm)]

theorem prependToCodes_getD_mem (b : Bool) (chars : List ℕ)
    (codes : List (List Bool)) (s : ℕ) (hnd : chars.Nodup) (hs : s ∈ chars)
    (hlt : s < codes.length) :
    (prependToCodes b chars codes).getD s [] = b :: codes.getD s [] := by
  induction chars generalizing codes with
  | nil => simp at hs
  | cons ch rest ih =>
    rcases List.nodup_cons.mp hnd with ⟨hch, hndr⟩
    unfold prependToCodes at ih ⊢
    simp only [List.foldl_cons]
    rcases List.mem_cons.mp hs with hsch | hsrest
    · subst hsch
      rw [show List.foldl (fun cs ch => cs.set ch (b :: cs.getD ch []))
            (codes.set s (b :: codes.getD s [])) rest =
          prependToCodes b rest (codes.set s (b :: codes.getD s [])) from rfl,
        prependToCodes_getD_not_mem _ _ _ _ hch,
        getD_set_self _ _ _ _ hlt]
    · have hne : s ≠ ch := fun h => hch (h ▸ hsrest)
      rw [ih _ hndr hsrest (by rw [List.length_set]; exact hlt),
        getD_set_ne _ _ _ _ _ (fun h => hne h.symm)]

theorem insertEntry_perm (new : Entry) (l : List Entry) :
    (insertEntry new l).Perm (new :: l) := by
  induction l with
  | nil => exact List.Perm.refl _
  | cons e rest ih =>
    unfold insertEntry
    by_cases h : e.1 ≤ new.1
    · simp [h]
    · simp only [h, if_false]
      exact (ih.cons e).trans (List.Perm.swap _ _ _)

theorem getD_replicate_nil (n i : ℕ) :
    (List.replicate n ([] : List Bool)).getD i [] = [] := by
  by_cases h : i < n
  · rw [List.getD_eq_getElem _ _ (by simpa using h), List.getElem_replicate]
  · rw [List.getD_eq_getElem?_getD, List.getElem?_eq_none (by simpa using Nat.le_of_not_lt h)]
    rfl

/-- The loop invariant of the merge loop of `compute_huffman` for 7-entry
histograms: the member lists of the working entries partition `0..6`; the
codes of each entry's members carry the Kraft mass of one complete subtree
and are mutually prefix-free; node ids stay below the tree length, which
grows in lockstep with the shrinking working list. -/
structure HuffInv (codes : List (List Bool)) (tree : List (ℕ × ℕ))
    (sizes : List Entry) : Prop where
  codesLen : codes.length = 7
  treeLen : tree.length + sizes.length = 14
  membersPerm : ((sizes.map (fun e => e.2.1)).flatten).Perm (List.range 7)
  membersNe : ∀ e ∈ sizes, e.2.1 ≠ []
  kraft : ∀ e ∈ sizes,
    (e.2.1.map (fun s => ((1 : ℚ)/2) ^ (codes.getD s []).length)).sum = 1
  prefixFree : ∀ e ∈ sizes, ∀ s ∈ e.2.1, ∀ t ∈ e.2.1, s ≠ t →
    ¬ (codes.getD s []) <+: (codes.getD t [])
  idsLt : ∀ e ∈ sizes, e.2.2 < tree.length
  treeNodes : ∀ p ∈ tree, p.1 < tree.length ∧ p.2 < tree.length
  bigNonempty : ∀ e ∈ sizes, 2 ≤ e.2.1.length → ∀ s ∈ e.2.1, codes.getD s [] ≠ []

theorem huffStep_inv (codes : List (List Bool)) (tree : List (ℕ × ℕ))
    (front : List Entry) (l r : Entry)
    (h : HuffInv codes tree (front ++ [l, r])) :
    HuffInv (prependToCodes true r.2.1 (prependToCodes false l.2.1 codes))
      (tree ++ [(l.2.2, r.2.2)])
      (insertEntry (l.1 + r.1, l.2.1 ++ r.2.1, tree.length) front) := by
  have hcl : codes.length = 7 := h.codesLen
  have hl : l ∈ front ++ [l, r] := by simp
  have hr : r ∈ front ++ [l, r] := by simp
  have hsplit : ((front ++ [l, r]).map (fun e => e.2.1)).flatten =
      (front.map (fun e => e.2.1)).flatten ++ (l.2.1 ++ r.2.1) := by
    rw [List.map_append, List.flatten_append]
    simp
  have hMP : ((front.map (fun e => e.2.1)).flatten ++ (l.2.1 ++ r.2.1)).Perm
      (List.range 7) := by
    rw [← hsplit]
    exact h.membersPerm
  have hnd : ((front.map (fun e => e.2.1)).flatten ++ (l.2.1 ++ r.2.1)).Nodup :=
    hMP.nodup_iff.mpr (List.nodup_range 7)
  have hlt7 : ∀ s ∈ (front.map (fun e => e.2.1)).flatten ++ (l.2.1 ++ r.2.1), s < 7 :=
    fun s hs => List.mem_range.mp (hMP.mem_iff.mp hs)
  obtain ⟨hFnd, hLRnd, hFdisj⟩ := List.nodup_append.mp hnd
  obtain ⟨hLnd, hRnd, hLRdisj⟩ := List.nodup_append.mp hLRnd
  have hmemF : ∀ e ∈ front, ∀ s ∈ e.2.1,
      s ∈ (front.map (fun e => e.2.1)).flatten := by
    intro e he s hs
    exact List.mem_flatten.mpr ⟨e.2.1, List.mem_map_of_mem _ he, hs⟩
  have hvalL : ∀ s ∈ l.2.1,
      (prependToCodes true r.2.1 (prependToCodes false l.2.1 codes)).getD s [] =
        false :: codes.getD s [] := by
    intro s hs
    rw [prependToCodes_getD_not_mem _ _ _ _ (fun hsr => hLRdisj hs hsr),
      prependToCodes_getD_mem _ _ _ _ hLnd hs
        (by rw [hcl]; exact hlt7 s (List.mem_append_right _ (List.mem_append_left _ hs)))]
  have hvalR : ∀ s ∈ r.2.1,
      (prependToCodes true r.2.1 (prependToCodes false l.2.1 codes)).getD s [] =
        true :: codes.getD s [] := by
    intro s hs
    rw [prependToCodes_getD_mem _ _ _ _ hRnd hs
        (by rw [prependToCodes_length, hcl]
            exact hlt7 s (List.mem_append_right _ (List.mem_append_right _ hs))),
      prependToCodes_getD_not_mem _ _ _ _ (fun hsl => hLRdisj hsl hs)]
  have hvalU : ∀ s, s ∉ l.2.1 → s ∉ r.2.1 →
      (prependToCodes true r.2.1 (prependToCodes false l.2.1 codes)).getD s [] =
        codes.getD s [] := by
    intro s hsl hsr
    rw [prependToCodes_getD_not_mem _ _ _ _ hsr, prependToCodes_getD_not_mem _ _ _ _ hsl]
  have hvalF : ∀ e ∈ front, ∀ s ∈ e.2.1,
      (prependToCodes true r.2.1 (prependToCodes false l.2.1 codes)).getD s [] =
        codes.getD s [] := by
    intro e he s hs
    have hF : s ∈ (front.map (fun e => e.2.1)).flatten := hmemF e he s hs
    have hdis := hFdisj hF
    exact hvalU s (fun hsl => hdis (List.mem_append_left _ hsl))
      (fun hsr => hdis (List.mem_append_right _ hsr))
  have hmemIns : ∀ e' ∈ insertEntry (l.1 + r.1, l.2.1 ++ r.2.1, tree.length) front,
      e' = (l.1 + r.1, l.2.1 ++ r.2.1, tree.length) ∨ e' ∈ front := by
    intro e' he'
    have := (insertEntry_perm _ front).mem_iff.mp he'
    simpa using this
  have hfront_mem : ∀ e ∈ front, e ∈ front ++ [l, r] :=
    fun e he => List.mem_append_left _ he
  refine ⟨?_, ?_, ?_, ?_, ?_, ?_, ?_, ?_, ?_⟩
  · rw [prependToCodes_length, prependToCodes_length]
    exact hcl
  · have ht := h.treeLen
    simp only [List.length_append, List.length_cons, List.length_nil] at ht
    simp only [List.length_append, List.length_cons, List.length_nil, insertEntry_length]
    omega
  · have h1 : ((insertEntry (l.1 + r.1, l.2.1 ++ r.2.1, tree.length) front).map
        (fun e => e.2.1)).Perm
        (((l.1 + r.1, l.2.1 ++ r.2.1, tree.length) :: front).map (fun e => e.2.1)) :=
      (insertEntry_perm _ front).map _
    have h2 := h1.flatten
    have h3 : (((l.1 + r.1, l.2.1 ++ r.2.1, tree.length) :: front).map
        (fun e => e.2.1)).flatten =
        (l.2.1 ++ r.2.1) ++ (front.map (fun e => e.2.1)).flatten := by
      simp [List.flatten_cons]
    rw [h3] at h2
    exact h2.trans (List.perm_append_comm.trans hMP)
  · intro e' he'
    rcases hmemIns e' he' with he' | he'
    · subst he'
      have := h.membersNe l hl
      simp only
      intro hc
      rcases List.append_eq_nil.mp hc with ⟨hL, -⟩
      exact this hL
    · exact h.membersNe e' (hfront_mem e' he')
  · intro e' he'
    rcases hmemIns e' he' with he' | he'
    · subst he'
      simp only [List.map_append, List.sum_append]
      have hLmap : l.2.1.map (fun s => ((1 : ℚ)/2) ^
          ((prependToCodes true r.2.1 (prependToCodes false l.2.1 codes)).getD s []).length) =
          l.2.1.map (fun s => (1 : ℚ)/2 * ((1 : ℚ)/2) ^ (codes.getD s []).length) := by
        apply List.map_congr_left
        intro s hs
        rw [hvalL s hs]
        rw [List.length_cons, pow_succ, mul_comm]
      have hRmap : r.2.1.map (fun s => ((1 : ℚ)/2) ^
          ((prependToCodes true r.2.1 (prependToCodes false l.2.1 codes)).getD s []).length) =
          r.2.1.map (fun s => (1 : ℚ)/2 * ((1 : ℚ)/2) ^ (codes.getD s []).length) := by
        apply List.map_congr_left
        intro s hs
        rw [hvalR s hs]
        rw [List.length_cons, pow_succ, mul_comm]
      rw [hLmap, hRmap, List.sum_map_mul_left, List.sum_map_mul_left,
        h.kraft l hl, h.kraft r hr]
      norm_num
    · have hmap : e'.2.1.map (fun s => ((1 : ℚ)/2) ^
          ((prependToCodes true r.2.1 (prependToCodes false l.2.1 codes)).getD s []).length) =
          e'.2.1.map (fun s => ((1 : ℚ)/2) ^ (codes.getD s []).length) := by
        apply List.map_congr_left
        intro s hs
        rw [hvalF e' he' s hs]
      rw [hmap]
      exact h.kraft e' (hfront_mem e' he')
  · intro e' he' s hs t ht hst
    rcases hmemIns e' he' with he' | he'
    · subst he'
      simp only at hs ht
      rcases List.mem_append.mp hs with hsL | hsR <;>
        rcases List.mem_append.mp ht with htL | htR
      · rw [hvalL s hsL, hvalL t htL, List.cons_prefix_cons]
        rintro ⟨-, hpre⟩
        exact h.prefixFree l hl s hsL t htL hst hpre
      · rw [hvalL s hsL, hvalR t htR, List.cons_prefix_cons]
        rintro ⟨hc, -⟩
        exact Bool.false_ne_true hc
      · rw [hvalR s hsR, hvalL t htL, List.cons_prefix_cons]
        rintro ⟨hc, -⟩
        exact Bool.false_ne_true hc.symm
      · rw [hvalR s hsR, hvalR t htR, List.cons_prefix_cons]
        rintro ⟨-, hpre⟩
        exact h.prefixFree r hr s hsR t htR hst hpre
    · rw [hvalF e' he' s hs, hvalF e' he' t ht]
      exact h.prefixFree e' (hfront_mem e' he') s hs t ht hst
  · intro e' he'
    rcases hmemIns e' he' with he' | he'
    · subst he'
      simp
    · have := h.idsLt e' (hfront_mem e' he')
      simp only [List.length_append, List.length_cons, List.length_nil]
      omega
  · intro p hp
    rcases List.mem_append.mp hp with hp | hp
    · have := h.treeNodes p hp
      simp only [List.length_append, List.length_cons, List.length_nil]
      omega
    · have hpl := h.idsLt l hl
      have hpr := h.idsLt r hr
      simp only [List.mem_cons, List.not_mem_nil, or_false] at hp
      subst hp
      simp only [List.length_append, List.length_cons, List.length_nil]
      omega
  · intro e' he' hlen s hs
    rcases hmemIns e' he' with he' | he'
    · subst he'
      simp only at hs
      rcases List.mem_append.mp hs with hsL | hsR
      · rw [hvalL s hsL]
        simp
      · rw [hvalR s hsR]
        simp
    · rw [hvalF e' he' s hs]
      exact h.bigNonempty e' (hfront_mem e' he') hlen s hs

theorem list_two_split {α : Type} (d : α) (s : List α) (h : 2 ≤ s.length) :
    s = s.dropLast.dropLast ++ [s.dropLast.getLastD d, s.getLastD d] := by
  have hne : s ≠ [] := by
    intro hc
    subst hc
    simp at h
  have hne1 : s.dropLast ≠ [] := by
    intro hc
    have := congrArg List.length hc
    simp only [List.length_dropLast, List.length_nil] at this
    omega
  have e1 : s.dropLast ++ [s.getLast hne] = s := List.dropLast_append_getLast hne
  have e2 : s.dropLast.dropLast ++ [s.dropLast.getLast hne1] = s.dropLast :=
    List.dropLast_append_getLast hne1
  have g1 : s.getLastD d = s.getLast hne := by
    rw [List.getLastD_eq_getLast?, List.getLast?_eq_getLast s hne]
    rfl
  have g2 : s.dropLast.getLastD d = s.dropLast.getLast hne1 := by
    rw [List.getLastD_eq_getLast?, List.getLast?_eq_getLast _ hne1]
    rfl
  rw [g1, g2]
  conv_lhs => rw [← e1, ← e2]
  simp

theorem huffLoop_cons_cons (codes : List (List Bool)) (tree : List (ℕ × ℕ))
    (e₁ e₂ : Entry) (rest : List Entry) :
    huffLoop codes tree (e₁ :: e₂ :: rest) =
      huffLoop
        (prependToCodes true ((e₁ :: e₂ :: rest).getLastD (0, [], 0)).2.1
          (prependToCodes false
            ((e₁ :: e₂ :: rest).dropLast.getLastD (0, [], 0)).2.1 codes))
        (tree ++ [(((e₁ :: e₂ :: rest).dropLast.getLastD (0, [], 0)).2.2,
          ((e₁ :: e₂ :: rest).getLastD (0, [], 0)).2.2)])
        (insertEntry
          (((e₁ :: e₂ :: rest).dropLast.getLastD (0, [], 0)).1 +
              ((e₁ :: e₂ :: rest).getLastD (0, [], 0)).1,
            ((e₁ :: e₂ :: rest).dropLast.getLastD (0, [], 0)).2.1 ++
              ((e₁ :: e₂ :: rest).getLastD (0, [], 0)).2.1,
            tree.length)
          (e₁ :: e₂ :: rest).dropLast.dropLast) := by
  have hlen : (insertEntry
      (((e₁ :: e₂ :: rest).dropLast.getLastD (0, [], 0)).1 +
          ((e₁ :: e₂ :: rest).getLastD (0, [], 0)).1,
        ((e₁ :: e₂ :: rest).dropLast.getLastD (0, [], 0)).2.1 ++
          ((e₁ :: e₂ :: rest).getLastD (0, [], 0)).2.1,
        tree.length)
      (e₁ :: e₂ :: rest).dropLast.dropLast).length = rest.length + 1 := by
    rw [insertEntry_length]
    simp
  unfold huffLoop
  rw [hlen]
  rfl

theorem huffLoop_singleton (codes : List (List Bool)) (tree : List (ℕ × ℕ))
    (e : Entry) : huffLoop codes tree [e] = (codes, tree) := rfl

theorem huffLoop_final (n : ℕ) : ∀ (sizes : List Entry) (codes : List (List Bool))
    (tree : List (ℕ × ℕ)), sizes.length = n → sizes ≠ [] → HuffInv codes tree sizes →
    ∃ e : Entry,
      HuffInv (huffLoop codes tree sizes).1 (huffLoop codes tree sizes).2 [e] := by
  induction n using Nat.strong_induction_on with
  | _ n ih =>
    intro sizes codes tree hlen hne hinv
    rcases sizes with _ | ⟨e₁, _ | ⟨e₂, rest⟩⟩
    · exact absurd rfl hne
    · refine ⟨e₁, ?_⟩
      rw [huffLoop_singleton]
      exact hinv
    · have h2 : 2 ≤ (e₁ :: e₂ :: rest).length := by
        simp only [List.length_cons]
        omega
      have hsplit := list_two_split (0, [], 0) (e₁ :: e₂ :: rest) h2
      have hstep := huffStep_inv codes tree (e₁ :: e₂ :: rest).dropLast.dropLast
        ((e₁ :: e₂ :: rest).dropLast.getLastD (0, [], 0))
        ((e₁ :: e₂ :: rest).getLastD (0, [], 0))
        (by rw [← hsplit]; exact hinv)
      have hlen' : (insertEntry
          (((e₁ :: e₂ :: rest).dropLast.getLastD (0, [], 0)).1 +
              ((e₁ :: e₂ :: rest).getLastD (0, [], 0)).1,
            ((e₁ :: e₂ :: rest).dropLast.getLastD (0, [], 0)).2.1 ++
              ((e₁ :: e₂ :: rest).getLastD (0, [], 0)).2.1,
            tree.length)
          (e₁ :: e₂ :: rest).dropLast.dropLast).length = n - 1 := by
        rw [insertEntry_length]
        simp only [List.length_dropLast, List.length_cons]
        simp only [List.length_cons] at hlen
        omega
      have hne' : (insertEntry
          (((e₁ :: e₂ :: rest).dropLast.getLastD (0, [], 0)).1 +
              ((e₁ :: e₂ :: rest).getLastD (0, [], 0)).1,
            ((e₁ :: e₂ :: rest).dropLast.getLastD (0, [], 0)).2.1 ++
              ((e₁ :: e₂ :: rest).getLastD (0, [], 0)).2.1,
            tree.length)
          (e₁ :: e₂ :: rest).dropLast.dropLast) ≠ [] := by
        intro hc
        have := congrArg List.length hc
        rw [hlen'] at this
        simp only [List.length_nil] at this
        simp only [List.length_cons] at hlen
        omega
      obtain ⟨e, he⟩ := ih (n - 1)
        (by simp only [List.length_cons] at hlen; omega) _ _ _ hlen' hne' hstep
      refine ⟨e, ?_⟩
      rw [huffLoop_cons_cons]
      exact he

/-- Any 7-entry histogram drives `compute_huffman` to a final state in which
the single surviving working entry covers all of `0..6` and the loop
invariant holds. -/
theorem compute_huffman_final (cnts : List ℕ) (h7 : cnts.length = 7) :
    ∃ e : Entry,
      HuffInv (compute_huffman cnts).1 (compute_huffman cnts).2 [e] := by
  have hch : compute_huffman cnts =
      huffLoop (List.replicate cnts.length ([] : List Bool))
        ((List.range cnts.length).map (fun i => (i, i)))
        (sortDesc ((List.range cnts.length).map
          (fun i => ((cnts.getD i 0, [i], i) : Entry)))) := rfl
  rw [hch, h7]
  have hsp : (sortDesc ((List.range 7).map
      (fun i => ((cnts.getD i 0, [i], i) : Entry)))).Perm
      ((List.range 7).map (fun i => ((cnts.getD i 0, [i], i) : Entry))) :=
    List.perm_insertionSort _ _
  have hslen : (sortDesc ((List.range 7).map
      (fun i => ((cnts.getD i 0, [i], i) : Entry)))).length = 7 :=
    hsp.length_eq.trans (by simp)
  have hmem : ∀ e ∈ sortDesc ((List.range 7).map
      (fun i => ((cnts.getD i 0, [i], i) : Entry))),
      ∃ i, i < 7 ∧ e = (cnts.getD i 0, [i], i) := by
    intro e he
    have := hsp.mem_iff.mp he
    obtain ⟨i, hi, hei⟩ := List.mem_map.mp this
    exact ⟨i, List.mem_range.mp hi, hei.symm⟩
  have hinv : HuffInv (List.replicate 7 ([] : List Bool))
      ((List.range 7).map (fun i => (i, i)))
      (sortDesc ((List.range 7).map (fun i => ((cnts.getD i 0, [i], i) : Entry)))) := by
    refine ⟨by simp, ?_, ?_, ?_, ?_, ?_, ?_, ?_, ?_⟩
    · rw [hslen]
      simp
    · have h1 : ((sortDesc ((List.range 7).map
          (fun i => ((cnts.getD i 0, [i], i) : Entry)))).map (fun e => e.2.1)).Perm
          (((List.range 7).map (fun i => ((cnts.getD i 0, [i], i) : Entry))).map
            (fun e => e.2.1)) := hsp.map _
      have h2 : ((List.range 7).map (fun i => ((cnts.getD i 0, [i], i) : Entry))).map
          (fun e => e.2.1) = (List.range 7).map (fun i => [i]) := by
        rw [List.map_map]
        rfl
      have h3 : ((List.range 7).map (fun i => [i])).flatten = List.range 7 := by
        decide
      rw [h2] at h1
      exact h1.flatten.trans (h3 ▸ List.Perm.refl _)
    · intro e he
      obtain ⟨i, -, hei⟩ := hmem e he
      subst hei
      simp
    · intro e he
      obtain ⟨i, -, hei⟩ := hmem e he
      subst hei
      simp only [List.map_cons, List.map_nil, List.sum_cons, List.sum_nil,
        getD_replicate_nil]
      norm_num
    · intro e he s hs t ht hst
      obtain ⟨i, -, hei⟩ := hmem e he
      subst hei
      simp only [List.mem_singleton] at hs ht
      subst hs
      subst ht
      exact absurd rfl hst
    · intro e he
      obtain ⟨i, hi, hei⟩ := hmem e he
      subst hei
      simpa using hi
    · intro p hp
      obtain ⟨i, hi, hpi⟩ := List.mem_map.mp hp
      rw [← hpi]
      simpa using List.mem_range.mp hi
    · intro e he hlen
      obtain ⟨i, -, hei⟩ := hmem e he
      subst hei
      simp at hlen
  exact huffLoop_final 7 _ _ _ hslen
    (by intro hc; rw [hc] at hslen; simp at hslen) hinv

theorem final_members_perm (cnts : List ℕ) (e : Entry)
    (hinv : HuffInv (compute_huffman cnts).1 (compute_huffman cnts).2 [e]) :
    e.2.1.Perm (List.range 7) := by
  have := hinv.membersPerm
  simpa using this

/-- C1 (corrected): a 7-leaf Huffman build performs 6 merges, so the tree list
has 13 entries (7 leaves plus internal nodes at indices 7..12), `encode_tree`
emits exactly 6 bytes, every child id is below 13, and each emitted byte's
high and low nibbles are below 16. -/
theorem compute_huffman_tree_bytes (cnts : List ℕ) (h7 : cnts.length = 7) :
    (compute_huffman cnts).2.length = 13 ∧
    (encode_tree (compute_huffman cnts).2).length = 6 ∧
    (∀ p ∈ (compute_huffman cnts).2, p.1 < 13 ∧ p.2 < 13) ∧
    (∀ b ∈ encode_tree (compute_huffman cnts).2, b / 16 < 16 ∧ b % 16 < 16) := by
  obtain ⟨e, hinv⟩ := compute_huffman_final cnts h7
  have htl : (compute_huffman cnts).2.length = 13 := by
    have := hinv.treeLen
    simp only [List.length_singleton] at this
    omega
  refine ⟨htl, ?_, ?_, ?_⟩
  · unfold encode_tree
    rw [List.length_map, List.length_drop, htl]
    decide
  · intro p hp
    have := hinv.treeNodes p hp
    omega
  · intro b hb
    unfold encode_tree at hb
    obtain ⟨p, hp, hbp⟩ := List.mem_map.mp hb
    have hpt : p ∈ (compute_huffman cnts).2 := List.mem_of_mem_drop hp
    have h1 := hinv.treeNodes p hpt
    rw [htl] at h1
    subst hbp
    omega

/-- Witness for `compute_huffman_tree_bytes` at the histogram
`[1, 2, 3, 4, 5, 6, 7]`. -/
theorem compute_huffman_tree_bytes_witness :
    ([1, 2, 3, 4, 5, 6, 7] : List ℕ).length = 7 ∧
    ((compute_huffman [1, 2, 3, 4, 5, 6, 7]).2.length = 13 ∧
     (encode_tree (compute_huffman [1, 2, 3, 4, 5, 6, 7]).2).length = 6 ∧
     (∀ p ∈ (compute_huffman [1, 2, 3, 4, 5, 6, 7]).2, p.1 < 13 ∧ p.2 < 13) ∧
     (∀ b ∈ encode_tree (compute_huffman [1, 2, 3, 4, 5, 6, 7]).2,
       b / 16 < 16 ∧ b % 16 < 16)) :=
  ⟨rfl, compute_huffman_tree_bytes [1, 2, 3, 4, 5, 6, 7] rfl⟩

/-- C1 counterexample: on the histogram `[1, 1, 1, 1, 1, 1, 1]` the serialized
tree has 6 bytes, not the 5 the claim states, and the tree list holds 13
nodes, so internal ids run `7..12`, not `7..11`. -/
theorem encode_tree_five_bytes_counterexample :
    (encode_tree (compute_huffman [1, 1, 1, 1, 1, 1, 1]).2).length = 6 ∧
    (encode_tree (compute_huffman [1, 1, 1, 1, 1, 1, 1]).2).length ≠ 5 ∧
    (compute_huffman [1, 1, 1, 1, 1, 1, 1]).2.length = 13 := by
  refine ⟨by decide, by decide, by decide⟩

/-- C9: `compute_huffman` is total on every 7-entry histogram (including the
all-zero one): it always returns 7 codewords and a 13-node tree, and every
symbol — zero-count ones included — receives a nonempty codeword. -/
theorem compute_huffman_total_codes (cnts : List ℕ) (h7 : cnts.length = 7) :
    (compute_huffman cnts).1.length = 7 ∧
    (compute_huffman cnts).2.length = 13 ∧
    ∀ c ∈ (compute_huffman cnts).1, c ≠ [] := by
  obtain ⟨e, hinv⟩ := compute_huffman_final cnts h7
  have hper : e.2.1.Perm (List.range 7) := final_members_perm cnts e hinv
  have htl : (compute_huffman cnts).2.length = 13 := by
    have := hinv.treeLen
    simp only [List.length_singleton] at this
    omega
  have hlen2 : 2 ≤ e.2.1.length := by
    rw [hper.length_eq]
    simp
  have hne := hinv.bigNonempty e (by simp) hlen2
  refine ⟨hinv.codesLen, htl, ?_⟩
  intro c hc
  obtain ⟨i, hilt, hci⟩ := List.mem_iff_getElem.mp hc
  have hi7 : i < 7 := by
    have := hinv.codesLen
    omega
  have hmem : i ∈ e.2.1 := hper.mem_iff.mpr (List.mem_range.mpr hi7)
  have hval := hne i hmem
  rw [List.getD_eq_getElem _ _ hilt, hci] at hval
  exact hval

/-- Witness for `compute_huffman_total_codes` at the all-zero histogram. -/
theorem compute_huffman_total_codes_witness :
    ([0, 0, 0, 0, 0, 0, 0] : List ℕ).length = 7 ∧
    ((compute_huffman [0, 0, 0, 0, 0, 0, 0]).1.length = 7 ∧
     (compute_huffman [0, 0, 0, 0, 0, 0, 0]).2.length = 13 ∧
     ∀ c ∈ (compute_huffman [0, 0, 0, 0, 0, 0, 0]).1, c ≠ []) :=
  ⟨rfl, compute_huffman_total_codes [0, 0, 0, 0, 0, 0, 0] rfl⟩

/-- C8 (corrected): for every 7-entry histogram the codeword table is
prefix-free and satisfies Kraft's inequality with equality over ALL seven
symbols — zero-count symbols also carry codewords, so restricting the sum to
nonzero-count symbols (as the claim states it) undercounts. -/
theorem compute_huffman_kraft_prefix_free (cnts : List ℕ) (h7 : cnts.length = 7) :
    (((List.range 7).map
      (fun s => ((1 : ℚ)/2) ^ ((compute_huffman cnts).1.getD s []).length)).sum = 1) ∧
    ∀ s, s < 7 → ∀ t, t < 7 → s ≠ t →
      ¬ ((compute_huffman cnts).1.getD s []) <+: ((compute_huffman cnts).1.getD t []) := by
  obtain ⟨e, hinv⟩ := compute_huffman_final cnts h7
  have hper : e.2.1.Perm (List.range 7) := final_members_perm cnts e hinv
  constructor
  · have hk := hinv.kraft e (by simp)
    have hsum := (hper.map
      (fun s => ((1 : ℚ)/2) ^ ((compute_huffman cnts).1.getD s []).length)).sum_eq
    rw [← hsum]
    exact hk
  · intro s hs t ht hst
    exact hinv.prefixFree e (by simp) s (hper.mem_iff.mpr (List.mem_range.mpr hs))
      t (hper.mem_iff.mpr (List.mem_range.mpr ht)) hst

/-- Witness for `compute_huffman_kraft_prefix_free` at `[1, 0, 0, 0, 0, 0, 0]`. -/
theorem compute_huffman_kraft_prefix_free_witness :
    ([1, 0, 0, 0, 0, 0, 0] : List ℕ).length = 7 ∧
    ((((List.range 7).map
      (fun s => ((1 : ℚ)/2) ^
        ((compute_huffman [1, 0, 0, 0, 0, 0, 0]).1.getD s []).length)).sum = 1) ∧
     ∀ s, s < 7 → ∀ t, t < 7 → s ≠ t →
      ¬ ((compute_huffman [1, 0, 0, 0, 0, 0, 0]).1.getD s []) <+:
          ((compute_huffman [1, 0, 0, 0, 0, 0, 0]).1.getD t [])) :=
  ⟨rfl, compute_huffman_kraft_prefix_free [1, 0, 0, 0, 0, 0, 0] rfl⟩

/-- C8 counterexample: on the histogram `[1, 0, 0, 0, 0, 0, 0]` only symbol 0
has nonzero count and its codeword is the single bit `'0'`, so the Kraft sum
over symbols with nonzero count is `1/2`, not `1`. -/
theorem kraft_nonzero_count_counterexample :
    (((List.range 7).filter
      (fun s => decide (([1, 0, 0, 0, 0, 0, 0] : List ℕ).getD s 0 ≠ 0))).map
      (fun s => ((1 : ℚ)/2) ^
        ((compute_huffman [1, 0, 0, 0, 0, 0, 0]).1.getD s []).length)).sum ≠ 1 := by
  have hf : (List.range 7).filter
      (fun s => decide (([1, 0, 0, 0, 0, 0, 0] : List ℕ).getD s 0 ≠ 0)) = [0] := by
    decide
  have hc : ((compute_huffman [1, 0, 0, 0, 0, 0, 0]).1.getD 0 []).length = 1 := by
    decide
  rw [hf, List.map_singleton, hc]
  norm_num

theorem listLtB_irrefl (a : List ℕ) : listLtB a a = false := by
  induction a with
  | nil => rfl
  | cons x xs ih => simp [listLtB, ih]

theorem listLtB_trans : ∀ a b c : List ℕ, listLtB a b = true → listLtB b c = true →
    listLtB a c = true
  | [], [], _, h1, _ => by simp [listLtB] at h1
  | [], _ :: _, [], _, h2 => by simp [listLtB] at h2
  | [], _ :: _, _ :: _, _, _ => rfl
  | _ :: _, [], _, h1, _ => by simp [listLtB] at h1
  | _ :: _, _ :: _, [], _, h2 => by simp [listLtB] at h2
  | a :: as, b :: bs, c :: cs, h1, h2 => by
    simp only [listLtB] at h1 h2 ⊢
    split_ifs at h1 h2 ⊢ <;>
      first
        | rfl
        | omega
        | exact listLtB_trans as bs cs h1 h2
        | simp_all

theorem listLtB_conn : ∀ a b : List ℕ, listLtB a b = false → listLtB b a = false →
    a = b
  | [], [], _, _ => rfl
  | [], _ :: _, h1, _ => by simp [listLtB] at h1
  | _ :: _, [], _, h2 => by simp [listLtB] at h2
  | a :: as, b :: bs, h1, h2 => by
    simp only [listLtB] at h1 h2
    split_ifs at h1 h2 <;>
      first
        | (have h3 : a = b := by omega
           have h4 := listLtB_conn as bs h1 h2
           rw [h3, h4])
        | omega
        | simp_all

theorem listLtB_asymm (a b : List ℕ) (h1 : listLtB a b = true) :
    listLtB b a = false := by
  cases hba : listLtB b a with
  | false => rfl
  | true =>
    have := listLtB_trans a b a h1 hba
    rw [listLtB_irrefl] at this
    exact absurd this (by simp)

theorem listLtB_singleton (x y : ℕ) : listLtB [x] [y] = decide (x < y) := by
  simp only [listLtB]
  split_ifs with h1 h2 <;> simp <;> omega

theorem entryLtB_irrefl (a : Entry) : entryLtB a a = false := by
  unfold entryLtB
  simp [listLtB_irrefl]

theorem entryLtB_true_iff (a b : Entry) : entryLtB a b = true ↔
    a.1 < b.1 ∨ (a.1 = b.1 ∧ listLtB a.2.1 b.2.1 = true) ∨
      (a.1 = b.1 ∧ a.2.1 = b.2.1 ∧ a.2.2 < b.2.2) := by
  unfold entryLtB
  split_ifs with h1 h2 h3 h4
  · simp [h1]
  · simp only [Bool.false_eq_true, false_iff]
    push_neg
    refine ⟨by omega, fun hc _ => absurd hc (by omega), fun hc _ => absurd hc (by omega)⟩
  · have hab : a.1 = b.1 := by omega
    simp [hab, h3]
  · simp only [Bool.false_eq_true, false_iff]
    push_neg
    refine ⟨by omega, ?_, ?_⟩
    · intro _
      exact h3
    · intro _ hm
      rw [hm] at h4
      rw [listLtB_irrefl] at h4
      exact absurd h4 (by simp)
  · have hab : a.1 = b.1 := by omega
    have hm : a.2.1 = b.2.1 :=
      listLtB_conn _ _ (by simpa using h3) (by simpa using h4)
    simp [hab, hm, listLtB_irrefl]

theorem entryLtB_trans (a b c : Entry) (h1 : entryLtB a b = true)
    (h2 : entryLtB b c = true) : entryLtB a c = true := by
  rw [entryLtB_true_iff] at h1 h2 ⊢
  rcases h1 with h1 | ⟨h1e, h1m⟩ | ⟨h1e, h1m, h1i⟩ <;>
    rcases h2 with h2 | ⟨h2e, h2m⟩ | ⟨h2e, h2m, h2i⟩
  · exact Or.inl (by omega)
  · exact Or.inl (by omega)
  · exact Or.inl (by omega)
  · exact Or.inl (by omega)
  · exact Or.inr (Or.inl ⟨by omega, listLtB_trans _ _ _ h1m h2m⟩)
  · exact Or.inr (Or.inl ⟨by omega, h2m ▸ h1m⟩)
  · exact Or.inl (by omega)
  · exact Or.inr (Or.inl ⟨by omega, h1m ▸ h2m⟩)
  · exact Or.inr (Or.inr ⟨by omega, h1m.trans h2m, by omega⟩)

theorem entryLtB_conn (a b : Entry) (h1 : entryLtB a b = false)
    (h2 : entryLtB b a = false) : a = b := by
  have h1' := (not_iff_not.mpr (entryLtB_true_iff a b)).mp (by simp [h1])
  have h2' := (not_iff_not.mpr (entryLtB_true_iff b a)).mp (by simp [h2])
  push_neg at h1' h2'
  obtain ⟨h1lt, h1eq, h1id⟩ := h1'
  obtain ⟨h2lt, h2eq, h2id⟩ := h2'
  have hcnt : a.1 = b.1 := by omega
  have hmem : a.2.1 = b.2.1 :=
    listLtB_conn _ _ (by
      cases hm : listLtB a.2.1 b.2.1 with
      | false => rfl
      | true => exact absurd hm (h1eq hcnt)) (by
      cases hm : listLtB b.2.1 a.2.1 with
      | false => rfl
      | true => exact absurd hm (h2eq hcnt.symm))
  have hid : a.2.2 = b.2.2 := by
    have ha := h1id hcnt hmem
    have hb := h2id hcnt.symm hmem.symm
    omega
  obtain ⟨a1, am, ai⟩ := a
  obtain ⟨b1, bm, bi⟩ := b
  simp only at hcnt hmem hid
  rw [hcnt, hmem, hid]

theorem entryLtB_false_total (a b : Entry) :
    entryLtB a b = false ∨ entryLtB b a = false := by
  by_contra hc
  push_neg at hc
  obtain ⟨h1, h2⟩ := hc
  have h1' : entryLtB a b = true := by
    cases h : entryLtB a b with
    | false => exact absurd h h1
    | true => rfl
  have h2' : entryLtB b a = true := by
    cases h : entryLtB b a with
    | false => exact absurd h h2
    | true => rfl
  have := entryLtB_trans a b a h1' h2'
  rw [entryLtB_irrefl] at this
  exact absurd this (by simp)

theorem entryLtB_false_trans (a b c : Entry) (h1 : entryLtB a b = false)
    (h2 : entryLtB b c = false) : entryLtB a c = false := by
  cases hac : entryLtB a c with
  | false => rfl
  | true =>
    cases hba : entryLtB b a with
    | true =>
      have := entryLtB_trans b a c hba hac
      rw [h2] at this
      exact absurd this (by simp)
    | false =>
      have hab := entryLtB_conn a b h1 hba
      rw [hab, h2] at hac
      exact absurd hac (by simp)

/-- The working list produced by `sorted(sizes, reverse=True)` is ordered by
the reversed Python tuple order. -/
theorem sortDesc_sorted (xs : List Entry) :
    (sortDesc xs).Pairwise (fun a b => entryLtB a b = false) := by
  have := @List.sorted_insertionSort Entry (fun a b => entryLtB a b = false)
    (fun a b => instDecidableEqBool _ _)
    ⟨fun a b => entryLtB_false_total a b⟩
    ⟨fun a b c => entryLtB_false_trans a b c⟩ xs
  exact this

/-- C3 (corrected): the initial working list of `compute_huffman` is sorted
descending by count, but Python's `sorted(..., reverse=True)` compares the
whole `(count, members, id)` tuples, so symbols with EQUAL counts appear in
DESCENDING symbol-id order, not ascending as the claim states. -/
theorem seed_sort_desc (cnts : List ℕ) :
    (sortDesc ((List.range cnts.length).map
      (fun i => ((cnts.getD i 0, [i], i) : Entry)))).Pairwise
      (fun a b => b.1 ≤ a.1 ∧ (a.1 = b.1 → b.2.2 < a.2.2)) := by
  have hP1 := sortDesc_sorted ((List.range cnts.length).map
    (fun i => ((cnts.getD i 0, [i], i) : Entry)))
  have hperm : (sortDesc ((List.range cnts.length).map
      (fun i => ((cnts.getD i 0, [i], i) : Entry)))).Perm
      ((List.range cnts.length).map (fun i => ((cnts.getD i 0, [i], i) : Entry))) :=
    List.perm_insertionSort _ _
  have hmapids : (((List.range cnts.length).map
      (fun i => ((cnts.getD i 0, [i], i) : Entry))).map (fun e => e.2.2)) =
      List.range cnts.length := by
    rw [List.map_map]
    exact List.map_id _
  have hidsperm : ((sortDesc ((List.range cnts.length).map
      (fun i => ((cnts.getD i 0, [i], i) : Entry)))).map (fun e => e.2.2)).Perm
      (List.range cnts.length) := by
    have h1 := hperm.map (fun e => e.2.2)
    rw [hmapids] at h1
    exact h1
  have hnodup := hidsperm.nodup_iff.mpr (List.nodup_range _)
  have hP2 : (sortDesc ((List.range cnts.length).map
      (fun i => ((cnts.getD i 0, [i], i) : Entry)))).Pairwise
      (fun a b => a.2.2 ≠ b.2.2) := List.pairwise_map.mp hnodup
  have hshape : ∀ e ∈ sortDesc ((List.range cnts.length).map
      (fun i => ((cnts.getD i 0, [i], i) : Entry))), e.2.1 = [e.2.2] := by
    intro e he
    obtain ⟨i, -, hei⟩ := List.mem_map.mp (hperm.mem_iff.mp he)
    rw [← hei]
  refine (hP1.and hP2).imp_of_mem ?_
  intro a b ha hb hab
  obtain ⟨hlt, hne⟩ := hab
  have h' := (not_iff_not.mpr (entryLtB_true_iff a b)).mp (by simp [hlt])
  push_neg at h'
  obtain ⟨hn1, hn2, -⟩ := h'
  refine ⟨by omega, ?_⟩
  intro heq
  have hm := hn2 heq
  rw [hshape a ha, hshape b hb, listLtB_singleton] at hm
  simp at hm
  omega

/-- C3 counterexample: with the all-zero histogram every count ties, and the
initial sorted working list has ids `6,5,4,3,2,1,0` — descending, not the
ascending order the claim states. -/
theorem seed_sort_tie_counterexample :
    ((sortDesc ((List.range 7).map
      (fun i => ((([0, 0, 0, 0, 0, 0, 0] : List ℕ).getD i 0, [i], i) : Entry)))).map
      (fun e => e.2.2) = [6, 5, 4, 3, 2, 1, 0]) ∧
    ((sortDesc ((List.range 7).map
      (fun i => ((([0, 0, 0, 0, 0, 0, 0] : List ℕ).getD i 0, [i], i) : Entry)))).map
      (fun e => e.2.2) ≠ [0, 1, 2, 3, 4, 5, 6]) :=
  ⟨by decide, by decide⟩

/-- C2 (corrected): in every merge step the two tail entries of the working
list are removed, and under the descending-sorted invariant their counts are
no larger than any remaining count; but the FIRST-removed entry (the very
last, `right` in the source) becomes the RIGHT child of the new internal
node and its members get bit `'1'`, while the SECOND-removed entry becomes
the LEFT child and its members get bit `'0'` — the opposite orientation of
the claim. -/
theorem huffLoop_merge_step (codes : List (List Bool)) (tree : List (ℕ × ℕ))
    (front : List Entry) (l r : Entry)
    (hsorted : (front ++ [l, r]).Pairwise (fun a b => b.1 ≤ a.1)) :
    huffLoop codes tree (front ++ [l, r]) =
      huffLoop (prependToCodes true r.2.1 (prependToCodes false l.2.1 codes))
        (tree ++ [(l.2.2, r.2.2)])
        (insertEntry (l.1 + r.1, l.2.1 ++ r.2.1, tree.length) front) ∧
    r.1 ≤ l.1 ∧ ∀ e ∈ front, l.1 ≤ e.1 ∧ r.1 ≤ e.1 := by
  have hform : front ++ [l, r] = (front ++ [l]) ++ [r] := by simp
  have hlast : (front ++ [l, r]).getLastD (0, [], 0) = r := by
    rw [hform, List.getLastD_concat]
  have hdrop : (front ++ [l, r]).dropLast = front ++ [l] := by
    rw [hform, List.dropLast_concat]
  have hlast2 : (front ++ [l, r]).dropLast.getLastD (0, [], 0) = l := by
    rw [hdrop, List.getLastD_concat]
  have hdrop2 : (front ++ [l, r]).dropLast.dropLast = front := by
    rw [hdrop, List.dropLast_concat]
  refine ⟨?_, ?_, ?_⟩
  · obtain ⟨e₁, e₂, rest, hE⟩ : ∃ e₁ e₂ rest, front ++ [l, r] = e₁ :: e₂ :: rest := by
      cases front with
      | nil => exact ⟨l, r, [], rfl⟩
      | cons f front' =>
        rcases hx : front' ++ [l, r] with _ | ⟨e₂, rest⟩
        · exact absurd hx (by simp)
        · exact ⟨f, e₂, rest, by simp [hx]⟩
    rw [hE, huffLoop_cons_cons, ← hE, hlast, hlast2, hdrop2]
  · have h2 := List.pairwise_append.mp hsorted
    have h3 := h2.2.1
    simp only [List.pairwise_cons] at h3
    exact h3.1 r (by simp)
  · intro e he
    have h2 := List.pairwise_append.mp hsorted
    exact ⟨h2.2.2 e he l (by simp), h2.2.2 e he r (by simp)⟩

/-- Witness for `huffLoop_merge_step` at a concrete sorted working list
`[(5, [2], 2), (2, [1], 1), (1, [0], 0)]` with the seed codes and leaf tree. -/
theorem huffLoop_merge_step_witness :
    (([((5, [2], 2) : Entry)] ++ [((2, [1], 1) : Entry), ((1, [0], 0) : Entry)]).Pairwise
      (fun a b => b.1 ≤ a.1)) ∧
    (huffLoop (List.replicate 7 ([] : List Bool))
        [(0, 0), (1, 1), (2, 2), (3, 3), (4, 4), (5, 5), (6, 6)]
        ([(5, [2], 2)] ++ [((2, [1], 1) : Entry), (1, [0], 0)]) =
      huffLoop
        (prependToCodes true [0]
          (prependToCodes false [1] (List.replicate 7 ([] : List Bool))))
        ([(0, 0), (1, 1), (2, 2), (3, 3), (4, 4), (5, 5), (6, 6)] ++ [(1, 0)])
        (insertEntry (2 + 1, [1] ++ [0], 7) [(5, [2], 2)]) ∧
      (1 : ℕ) ≤ 2 ∧ ∀ e ∈ [((5, [2], 2) : Entry)], 2 ≤ e.1 ∧ 1 ≤ e.1) :=
  ⟨by decide,
    huffLoop_merge_step (List.replicate 7 ([] : List Bool))
      [(0, 0), (1, 1), (2, 2), (3, 3), (4, 4), (5, 5), (6, 6)]
      [(5, [2], 2)] (2, [1], 1) (1, [0], 0) (by decide)⟩

/-- C2 counterexample: for the histogram `[1, 2, 3, 4, 5, 6, 7]` the first
merge removes the entry of symbol 0 (count 1, the tail) first and symbol 1
(count 2) second, and the appended internal node is `(1, 0)`: its left child
is the second-removed entry, not the first-removed one, so the claim's
orientation `(0, 1)` is refuted. -/
theorem merge_orientation_counterexample :
    (compute_huffman [1, 2, 3, 4, 5, 6, 7]).2.getD 7 (99, 99) = (1, 0) ∧
    (compute_huffman [1, 2, 3, 4, 5, 6, 7]).2.getD 7 (99, 99) ≠ (0, 1) :=
  ⟨by decide, by decide⟩

/-! ### Frame Serializer (`encode_matrix`) -/

/-- The per-row body of `encode_matrix`: the mixed-radix (Lehmer) encoding of
one Rank Matrix row.  For each rank `0..6` in order, locate the symbol
holding that rank (`list(row).index(rank)`), accumulate its index in the
shrinking pool `idxs` times the current factorial base, multiply the base by
the pool size, and remove the symbol from the pool. -/
def encodeRow (row : List ℕ) : ℕ :=
  ((List.range NUMCHARS).foldl
    (fun (st : ℕ × ℕ × List ℕ) rank =>
      let pos := row.indexOf rank
      (st.1 + st.2.2.indexOf pos * st.2.1, st.2.1 * st.2.2.length, st.2.2.erase pos))
    (0, 1, List.range NUMCHARS)).1

/-- Function `encode_matrix`: two bytes per row, high byte then low byte. -/
def encode_matrix (ranks : List (List ℕ)) : List ℕ :=
  ranks.foldl
    (fun out row =>
      let encoding := encodeRow row
      let low_byte := encoding % 256
      let high_byte := (encoding - low_byte) / 256
      out ++ [high_byte, low_byte])
    []

/-- Modelled from the spec: no decoder exists in the source (§1 declares
decoding out of scope and §6 only constrains it), so the inverse of the
mixed-radix scheme of §4.4 is modelled here: peel digits with radices
7, 6, 5, ... — each digit indexes the shrinking pool of remaining symbols —
and assign rank `0..6` to the selected pool position. -/
def decodeRow (enc : ℕ) : List ℕ :=
  ((List.range NUMCHARS).foldl
    (fun (st : List ℕ × ℕ × List ℕ) rank =>
      let d := st.2.1 % st.2.2.length
      let pos := st.2.2.getD d 0
      (st.1.set pos rank, st.2.1 / st.2.2.length, st.2.2.eraseIdx d))
    (List.replicate NUMCHARS 0, enc, List.range NUMCHARS)).1

/-- Horner form of the mixed-radix digit stream accumulated by `encodeRow`:
digit = index of the symbol holding the current rank within the shrinking
pool, radix = pool size. -/
def encAux (row : List ℕ) : List ℕ → List ℕ → ℕ
  | [], _ => 0
  | r :: rs, idxs =>
    idxs.indexOf (row.indexOf r) +
      idxs.length * encAux row rs (idxs.erase (row.indexOf r))

theorem encodeRow_foldl (row : List ℕ) : ∀ (rs : List ℕ) (e f : ℕ) (idxs : List ℕ),
    (rs.foldl
      (fun (st : ℕ × ℕ × List ℕ) rank =>
        let pos := row.indexOf rank
        (st.1 + st.2.2.indexOf pos * st.2.1, st.2.1 * st.2.2.length,
          st.2.2.erase pos))
      (e, f, idxs)).1 = e + f * encAux row rs idxs := by
  intro rs
  induction rs with
  | nil =>
    intro e f idxs
    simp [encAux]
  | cons r rs ih =>
    intro e f idxs
    simp only [List.foldl_cons]
    rw [ih]
    simp only [encAux]
    ring

theorem encodeRow_eq (row : List ℕ) :
    encodeRow row = encAux row (List.range 7) (List.range 7) := by
  unfold encodeRow
  rw [show (List.range NUMCHARS) = List.range 7 from rfl, encodeRow_foldl]
  ring

/-- Recursion form of the fold inside the modelled `decodeRow`. -/
def decAux : List ℕ → List ℕ → ℕ → List ℕ → List ℕ
  | out, [], _, _ => out
  | out, r :: rs, e, idxs =>
    decAux (out.set (idxs.getD (e % idxs.length) 0) r) rs (e / idxs.length)
      (idxs.eraseIdx (e % idxs.length))

theorem decodeRow_foldl : ∀ (rs out : List ℕ) (e : ℕ) (idxs : List ℕ),
    (rs.foldl
      (fun (st : List ℕ × ℕ × List ℕ) rank =>
        let d := st.2.1 % st.2.2.length
        let pos := st.2.2.getD d 0
        (st.1.set pos rank, st.2.1 / st.2.2.length, st.2.2.eraseIdx d))
      (out, e, idxs)).1 = decAux out rs e idxs := by
  intro rs
  induction rs with
  | nil =>
    intro out e idxs
    rfl
  | cons r rs ih =>
    intro out e idxs
    simp only [List.foldl_cons]
    rw [ih]
    rfl

theorem decodeRow_eq (enc : ℕ) :
    decodeRow enc = decAux (List.replicate 7 0) (List.range 7) enc (List.range 7) := by
  unfold decodeRow
  rw [show (List.range NUMCHARS) = List.range 7 from rfl,
    show (List.replicate NUMCHARS (0 : ℕ)) = List.replicate 7 0 from rfl,
    decodeRow_foldl]

/-- Decoding the Horner value against the same pool replays exactly the
`position ↦ rank` assignments of the encoder. -/
theorem decAux_encAux (row : List ℕ) : ∀ (rs idxs out : List ℕ),
    (∀ r ∈ rs, row.indexOf r ∈ idxs) →
    (∀ r ∈ rs, ∀ s ∈ rs, row.indexOf r = row.indexOf s → r = s) →
    rs.Nodup →
    decAux out rs (encAux row rs idxs) idxs =
      rs.foldl (fun o r => o.set (row.indexOf r) r) out := by
  intro rs
  induction rs with
  | nil =>
    intro idxs out _ _ _
    rfl
  | cons r rs ih =>
    intro idxs out hpos hinj hnd
    have hmem : row.indexOf r ∈ idxs := hpos r (by simp)
    have hidx : idxs.indexOf (row.indexOf r) < idxs.length :=
      List.indexOf_lt_length.mpr hmem
    have hn : 0 < idxs.length := by omega
    simp only [decAux, encAux]
    have hmod : (idxs.indexOf (row.indexOf r) +
        idxs.length * encAux row rs (idxs.erase (row.indexOf r))) % idxs.length =
        idxs.indexOf (row.indexOf r) := by
      rw [Nat.add_mul_mod_self_left, Nat.mod_eq_of_lt hidx]
    have hdiv : (idxs.indexOf (row.indexOf r) +
        idxs.length * encAux row rs (idxs.erase (row.indexOf r))) / idxs.length =
        encAux row rs (idxs.erase (row.indexOf r)) := by
      rw [Nat.add_mul_div_left _ _ hn, Nat.div_eq_of_lt hidx, Nat.zero_add]
    have hgd : idxs.getD (idxs.indexOf (row.indexOf r)) 0 = row.indexOf r := by
      rw [List.getD_eq_getElem _ _ hidx]
      exact List.getElem_indexOf hidx
    have her : idxs.eraseIdx (idxs.indexOf (row.indexOf r)) =
        idxs.erase (row.indexOf r) := List.eraseIdx_indexOf_eq_erase _ _
    rw [hmod, hdiv, hgd, her]
    simp only [List.foldl_cons]
    apply ih
    · intro s hs
      have hsi : row.indexOf s ∈ idxs := hpos s (by simp [hs])
      have hne : row.indexOf s ≠ row.indexOf r := by
        intro hc
        have heq := hinj s (by simp [hs]) r (by simp) hc
        rcases List.nodup_cons.mp hnd with ⟨hr, -⟩
        exact hr (heq ▸ hs)
      exact (List.mem_erase_of_ne hne).mpr hsi
    · intro a ha b hb
      exact hinj a (by simp [ha]) b (by simp [hb])
    · exact (List.nodup_cons.mp hnd).2

/-- Falling-factorial bound `n * (n-1) * ... ` for the mixed-radix value. -/
def descFac : ℕ → ℕ → ℕ
  | _, 0 => 1
  | n, k + 1 => n * descFac (n - 1) k

theorem encAux_lt (row : List ℕ) : ∀ (rs idxs : List ℕ),
    (∀ r ∈ rs, row.indexOf r ∈ idxs) →
    (∀ r ∈ rs, ∀ s ∈ rs, row.indexOf r = row.indexOf s → r = s) →
    rs.Nodup →
    encAux row rs idxs < descFac idxs.length rs.length := by
  intro rs
  induction rs with
  | nil =>
    intro idxs _ _ _
    simp [encAux, descFac]
  | cons r rs ih =>
    intro idxs hpos hinj hnd
    have hmem : row.indexOf r ∈ idxs := hpos r (by simp)
    have hidx : idxs.indexOf (row.indexOf r) < idxs.length :=
      List.indexOf_lt_length.mpr hmem
    have hlen : (idxs.erase (row.indexOf r)).length = idxs.length - 1 :=
      List.length_erase_of_mem hmem
    have hM := ih (idxs.erase (row.indexOf r))
      (by
        intro s hs
        have hsi : row.indexOf s ∈ idxs := hpos s (by simp [hs])
        have hne : row.indexOf s ≠ row.indexOf r := by
          intro hc
          have heq := hinj s (by simp [hs]) r (by simp) hc
          rcases List.nodup_cons.mp hnd with ⟨hr, -⟩
          exact hr (heq ▸ hs)
        exact (List.mem_erase_of_ne hne).mpr hsi)
      (by
        intro a ha b hb
        exact hinj a (by simp [ha]) b (by simp [hb]))
      ((List.nodup_cons.mp hnd).2)
    rw [hlen] at hM
    simp only [encAux, descFac]
    calc idxs.indexOf (row.indexOf r) +
        idxs.length * encAux row rs (idxs.erase (row.indexOf r)) <
          idxs.length * (encAux row rs (idxs.erase (row.indexOf r)) + 1) := by
            rw [Nat.mul_add, Nat.mul_one]
            omega
      _ ≤ idxs.length * descFac (idxs.length - 1) rs.length :=
          Nat.mul_le_mul_left _ (by omega)

theorem foldl_set_length (row : List ℕ) (rs : List ℕ) : ∀ out : List ℕ,
    (rs.foldl (fun o r => o.set (row.indexOf r) r) out).length = out.length := by
  induction rs with
  | nil => intro out; rfl
  | cons r rs ih =>
    intro out
    simp only [List.foldl_cons]
    rw [ih, List.length_set]

theorem foldl_set_getD_ne (row : List ℕ) (rs : List ℕ) : ∀ (out : List ℕ) (p d : ℕ),
    (∀ r ∈ rs, row.indexOf r ≠ p) →
    (rs.foldl (fun o r => o.set (row.indexOf r) r) out).getD p d = out.getD p d := by
  induction rs with
  | nil =>
    intro out p d _
    rfl
  | cons r rs ih =>
    intro out p d h
    simp only [List.foldl_cons]
    rw [ih _ _ _ (fun s hs => h s (by simp [hs])),
      getD_set_ne _ _ _ _ _ (h r (by simp))]

theorem foldl_set_getD_hit (row : List ℕ) (rs : List ℕ) : ∀ (out : List ℕ) (r₀ d : ℕ),
    r₀ ∈ rs → rs.Nodup →
    (∀ r ∈ rs, ∀ s ∈ rs, row.indexOf r = row.indexOf s → r = s) →
    row.indexOf r₀ < out.length →
    (rs.foldl (fun o r => o.set (row.indexOf r) r) out).getD (row.indexOf r₀) d = r₀ := by
  induction rs with
  | nil =>
    intro out r₀ d h0 _ _ _
    simp at h0
  | cons r rs ih =>
    intro out r₀ d h0 hnd hinj hlt
    rcases List.nodup_cons.mp hnd with ⟨hr, hndr⟩
    simp only [List.foldl_cons]
    rcases List.mem_cons.mp h0 with h0 | h0
    · subst h0
      rw [foldl_set_getD_ne row rs _ _ _
        (fun s hs hc => hr ((hinj s (by simp [hs]) r₀ (by simp) hc) ▸ hs)),
        getD_set_self _ _ _ _ hlt]
    · exact ih _ r₀ d h0 hndr
        (fun a ha b hb => hinj a (by simp [ha]) b (by simp [hb]))
        (by rw [List.length_set]; exact hlt)

/-- C7: for every permutation row, the mixed-radix integer of `encode_matrix`
is at most 5039, decoding it (with the decoder modelled from the spec)
recovers the row exactly, and the row is serialized as the two bytes
high-then-low. -/
theorem encode_matrix_row_roundtrip (row : List ℕ) (hperm : row.Perm (List.range 7)) :
    encodeRow row ≤ 5039 ∧
    decodeRow (encodeRow row) = row ∧
    encode_matrix [row] = [encodeRow row / 256, encodeRow row % 256] := by
  have hlen : row.length = 7 := hperm.length_eq.trans (List.length_range 7)
  have hnd : row.Nodup := hperm.nodup_iff.mpr (List.nodup_range 7)
  have hmemrow : ∀ r, r < 7 → r ∈ row :=
    fun r hr => hperm.mem_iff.mpr (List.mem_range.mpr hr)
  have hpos : ∀ r ∈ List.range 7, row.indexOf r ∈ List.range 7 := by
    intro r hrr
    have : List.indexOf r row < row.length :=
      List.indexOf_lt_length.mpr (hmemrow r (List.mem_range.mp hrr))
    rw [hlen] at this
    exact List.mem_range.mpr this
  have hinj : ∀ r ∈ List.range 7, ∀ s ∈ List.range 7,
      row.indexOf r = row.indexOf s → r = s := by
    intro r hrr s hss hc
    exact (List.indexOf_inj (hmemrow r (List.mem_range.mp hrr))
      (hmemrow s (List.mem_range.mp hss))).mp hc
  refine ⟨?_, ?_, ?_⟩
  · rw [encodeRow_eq]
    have := encAux_lt row (List.range 7) (List.range 7) hpos hinj (List.nodup_range 7)
    have hd : descFac (List.range 7).length (List.range 7).length = 5040 := by
      decide
    omega
  · rw [encodeRow_eq, decodeRow_eq,
      decAux_encAux row (List.range 7) (List.range 7) (List.replicate 7 0)
        hpos hinj (List.nodup_range 7)]
    apply List.ext_getElem
    · rw [foldl_set_length, List.length_replicate, hlen]
    · intro p h1 h2
      have hp7 : p < 7 := by
        rw [foldl_set_length, List.length_replicate] at h1
        exact h1
      have hvmem : row[p] ∈ row := List.getElem_mem _
      have hv7 : row[p] < 7 := List.mem_range.mp (hperm.mem_iff.mp hvmem)
      have hip : row.indexOf row[p] = p := List.indexOf_getElem hnd p h2
      have := foldl_set_getD_hit row (List.range 7) (List.replicate 7 0) row[p] 0
        (List.mem_range.mpr hv7) (List.nodup_range 7) hinj
        (by rw [List.length_replicate, hip]; exact hp7)
      rw [hip] at this
      rw [← List.getD_eq_getElem _ 0 h1, this]
  · unfold encode_matrix
    simp only [List.foldl_cons, List.foldl_nil, List.nil_append]
    have hsub : encodeRow row - encodeRow row % 256 = 256 * (encodeRow row / 256) := by
      omega
    rw [hsub, Nat.mul_div_cancel_left _ (by norm_num)]

/-- Witness for `encode_matrix_row_roundtrip` at the permutation
`[1, 0, 6, 5, 4, 3, 2]` (encoding 4999 = bytes 19, 135). -/
theorem encode_matrix_row_roundtrip_witness :
    (([1, 0, 6, 5, 4, 3, 2] : List ℕ).Perm (List.range 7)) ∧
    (encodeRow [1, 0, 6, 5, 4, 3, 2] ≤ 5039 ∧
     decodeRow (encodeRow [1, 0, 6, 5, 4, 3, 2]) = [1, 0, 6, 5, 4, 3, 2] ∧
     encode_matrix [[1, 0, 6, 5, 4, 3, 2]] =
       [encodeRow [1, 0, 6, 5, 4, 3, 2] / 256, encodeRow [1, 0, 6, 5, 4, 3, 2] % 256]) :=
  ⟨by decide, encode_matrix_row_roundtrip [1, 0, 6, 5, 4, 3, 2] (by decide)⟩

/-! ### Bit Packer (`convert_huffman`) -/

/-- Function `convert_huffman`, with the module-level global `frame` passed as the
explicit first parameter: the iteration bounds `h, w = frame.shape` come
from the GLOBAL `frame`, while the pixels read are those of the
`markov_frame` parameter.  Codeword bits are appended left to right, the
bit string is padded with `'0'` to a byte boundary, and each octet is
packed with `char = char * 2 + bit` (most significant bit first). -/
def convert_huffman (frame : List (List ℕ)) (markov_frame : List (List ℕ))
    (codes : List (List Bool)) : List ℕ :=
  let h := frame.length
  let w := (frame.getD 0 []).length
  let out := (List.range h).foldl
    (fun bits y => (List.range w).foldl
      (fun bits x => bits ++ codes.getD ((markov_frame.getD y []).getD x 0) []) bits)
    []
  let padding := (8 - out.length % 8) % 8
  let padded := out ++ List.replicate padding false
  (List.range (padded.length / 8)).map
    (fun i => ((padded.drop (8 * i)).take 8).foldl
      (fun char bit => char * 2 + (if bit then 1 else 0)) 0)

theorem inner_fold_bits (codes : List (List Bool)) (row : List ℕ) :
    ∀ acc : List Bool,
    (List.range row.length).foldl
      (fun bits x => bits ++ codes.getD (row.getD x 0) []) acc =
      acc ++ row.flatMap (fun v => codes.getD v []) := by
  induction row using List.reverseRecOn with
  | nil =>
    intro acc
    simp
  | append_singleton rs a ih =>
    intro acc
    rw [List.length_append, List.length_singleton, List.range_succ, List.foldl_append]
    have hfun : (List.range rs.length).foldl
        (fun bits x => bits ++ codes.getD ((rs ++ [a]).getD x 0) []) acc =
        (List.range rs.length).foldl
          (fun bits x => bits ++ codes.getD (rs.getD x 0) []) acc := by
      apply List.foldl_ext
      intro b x hx
      rw [List.getD_append _ _ _ _ (List.mem_range.mp hx)]
    rw [hfun, ih]
    simp only [List.foldl_cons, List.foldl_nil]
    rw [List.getD_append_right _ _ _ _ (le_refl _), Nat.sub_self]
    rw [List.flatMap_append, ← List.append_assoc]
    simp

theorem outer_fold_bits (codes : List (List Bool)) (w : ℕ) :
    ∀ (mf : List (List ℕ)) (acc : List Bool),
    (∀ row ∈ mf, row.length = w) →
    (List.range mf.length).foldl
      (fun bits y => (List.range w).foldl
        (fun bits x => bits ++ codes.getD ((mf.getD y []).getD x 0) []) bits) acc =
      acc ++ mf.flatten.flatMap (fun v => codes.getD v []) := by
  intro mf
  induction mf using List.reverseRecOn with
  | nil =>
    intro acc _
    simp
  | append_singleton ms row ih =>
    intro acc hw
    rw [List.length_append, List.length_singleton, List.range_succ, List.foldl_append]
    have hfun : (List.range ms.length).foldl
        (fun bits y => (List.range w).foldl
          (fun bits x => bits ++ codes.getD (((ms ++ [row]).getD y []).getD x 0) []) bits)
        acc =
        (List.range ms.length).foldl
          (fun bits y => (List.range w).foldl
            (fun bits x => bits ++ codes.getD ((ms.getD y []).getD x 0) []) bits) acc := by
      apply List.foldl_ext
      intro b y hy
      rw [List.getD_append _ _ _ _ (List.mem_range.mp hy)]
    rw [hfun, ih acc (fun r hr => hw r (List.mem_append_left _ hr))]
    simp only [List.foldl_cons, List.foldl_nil]
    rw [List.getD_append_right _ _ _ _ (le_refl _), Nat.sub_self]
    have hrow : (([row] : List (List ℕ)).getD 0 []) = row := rfl
    rw [hrow, ← hw row (List.mem_append_right _ (by simp)), inner_fold_bits,
      List.flatten_concat, List.flatMap_append, ← List.append_assoc]


theorem foldl_bits (bs : List Bool) : ∀ acc : ℕ,
    bs.foldl (fun char bit => char * 2 + (if bit then 1 else 0)) acc =
      acc * 2 ^ bs.length +
        ∑ i ∈ Finset.range bs.length,
          (if bs.getD i false then 2 ^ (bs.length - 1 - i) else 0) := by
  induction bs with
  | nil =>
    intro acc
    simp
  | cons b bs ih =>
    intro acc
    simp only [List.foldl_cons, List.length_cons]
    rw [ih]
    rw [Finset.sum_range_succ']
    have h0 : (if (b :: bs).getD 0 false then 2 ^ (bs.length + 1 - 1 - 0) else 0) =
        (if b then 1 else 0) * 2 ^ bs.length := by
      cases b <;> simp
    have hshift : ∀ i, (if (b :: bs).getD (i + 1) false
          then 2 ^ (bs.length + 1 - 1 - (i + 1)) else 0) =
        (if bs.getD i false then 2 ^ (bs.length - 1 - i) else 0) := by
      intro i
      have h1 : (b :: bs).getD (i + 1) false = bs.getD i false := rfl
      have h2 : bs.length + 1 - 1 - (i + 1) = bs.length - 1 - i := by omega
      rw [h1, h2]
    rw [h0]
    have hsum : ∑ i ∈ Finset.range bs.length,
        (if (b :: bs).getD (i + 1) false then 2 ^ (bs.length + 1 - 1 - (i + 1)) else 0) =
        ∑ i ∈ Finset.range bs.length,
          (if bs.getD i false then 2 ^ (bs.length - 1 - i) else 0) := by
      apply Finset.sum_congr rfl
      intro i _
      exact hshift i
    rw [hsum]
    ring

theorem take_drop_getD (l : List Bool) (k i : ℕ) (hi : i < 8)
    (hb : 8 * k + 8 ≤ l.length) :
    ((l.drop (8 * k)).take 8).getD i false = l.getD (8 * k + i) false := by
  have h1 : i < ((l.drop (8 * k)).take 8).length := by
    rw [List.length_take, List.length_drop]
    omega
  have h2 : 8 * k + i < l.length := by omega
  rw [List.getD_eq_getElem _ _ h1, List.getD_eq_getElem _ _ h2,
    List.getElem_take, List.getElem_drop]

theorem take8_length (l : List Bool) (k : ℕ) (hb : 8 * k + 8 ≤ l.length) :
    ((l.drop (8 * k)).take 8).length = 8 := by
  rw [List.length_take, List.length_drop]
  omega

/-- C10: `convert_huffman` takes its bounds from the shape of the global
`frame`; whenever the global's shape agrees with `markov_frame`'s (the only
situation the main loop produces), the bit string is exactly the
`height * width` codewords of `markov_frame` appended in raster order, it is
padded with `'0'` bits to a multiple of 8, and bits are packed into bytes
most-significant-bit first. -/
theorem convert_huffman_spec (frame markov_frame : List (List ℕ))
    (codes : List (List Bool)) (w : ℕ)
    (hh : markov_frame.length = frame.length)
    (hwg : ∀ row ∈ frame, row.length = w)
    (hwm : ∀ row ∈ markov_frame, row.length = w) :
    markov_frame.flatten.length = frame.length * w ∧
    (convert_huffman frame markov_frame codes).length * 8 =
      (markov_frame.flatten.flatMap (fun v => codes.getD v [])).length +
        (8 - (markov_frame.flatten.flatMap (fun v => codes.getD v [])).length % 8) % 8 ∧
    ∀ k, k < (convert_huffman frame markov_frame codes).length →
      (convert_huffman frame markov_frame codes).getD k 0 =
        ∑ i ∈ Finset.range 8,
          (if (markov_frame.flatten.flatMap (fun v => codes.getD v []) ++
              List.replicate
                ((8 - (markov_frame.flatten.flatMap
                  (fun v => codes.getD v [])).length % 8) % 8) false).getD
              (8 * k + i) false
            then 2 ^ (7 - i) else 0) := by
  have hflen : markov_frame.flatten.length = frame.length * w := by
    rw [List.length_flatten]
    have hmap : markov_frame.map List.length = List.replicate markov_frame.length w :=
      List.eq_replicate_iff.mpr ⟨by simp, by
        intro x hx
        obtain ⟨r, hr, hrx⟩ := List.mem_map.mp hx
        rw [← hrx]
        exact hwm r hr⟩
    rw [hmap, List.sum_replicate, smul_eq_mul, hh]
  have hbits : (List.range frame.length).foldl
      (fun bits y => (List.range (frame.getD 0 []).length).foldl
        (fun bits x =>
          bits ++ codes.getD ((markov_frame.getD y []).getD x 0) []) bits)
      [] = markov_frame.flatten.flatMap (fun v => codes.getD v []) := by
    rcases hfe : frame with _ | ⟨row0, frest⟩
    · have hmf : markov_frame = [] := by
        rw [← List.length_eq_zero, hh, hfe]
        rfl
      rw [hmf]
      simp
    · have hw0 : (frame.getD 0 []).length = w := by
        rw [hfe]
        exact hwg row0 (by rw [hfe]; simp)
      rw [← hfe, hw0, ← hh]
      exact outer_fold_bits codes w markov_frame [] hwm
  set B := markov_frame.flatten.flatMap (fun v => codes.getD v []) with hB
  have hch : convert_huffman frame markov_frame codes =
      (List.range ((B ++ List.replicate ((8 - B.length % 8) % 8) false).length / 8)).map
        (fun i =>
          (((B ++ List.replicate ((8 - B.length % 8) % 8) false).drop (8 * i)).take
            8).foldl (fun char bit => char * 2 + (if bit then 1 else 0)) 0) := by
    unfold convert_huffman
    dsimp only
    rw [hbits]
  have hplen : (B ++ List.replicate ((8 - B.length % 8) % 8) false).length =
      B.length + (8 - B.length % 8) % 8 := by
    rw [List.length_append, List.length_replicate]
  have hdvd : ((B ++ List.replicate ((8 - B.length % 8) % 8) false).length) % 8 = 0 := by
    rw [hplen]
    omega
  refine ⟨hflen, ?_, ?_⟩
  · rw [hch, List.length_map, List.length_range, ← hplen]
    omega
  · intro k hk
    have hklen : k < (B ++ List.replicate ((8 - B.length % 8) % 8) false).length / 8 := by
      rw [hch, List.length_map, List.length_range] at hk
      exact hk
    have hbyte : 8 * k + 8 ≤ (B ++ List.replicate ((8 - B.length % 8) % 8) false).length := by
      omega
    rw [hch]
    rw [List.getD_eq_getElem _ 0 (by
      rw [List.length_map, List.length_range]
      exact hklen)]
    rw [List.getElem_map, List.getElem_range]
    rw [foldl_bits, take8_length _ _ hbyte]
    have hsum : ∑ i ∈ Finset.range 8,
        (if (((B ++ List.replicate ((8 - B.length % 8) % 8) false).drop (8 * k)).take
            8).getD i false then 2 ^ (8 - 1 - i) else 0) =
        ∑ i ∈ Finset.range 8,
          (if (B ++ List.replicate ((8 - B.length % 8) % 8) false).getD (8 * k + i) false
            then 2 ^ (7 - i) else 0) := by
      apply Finset.sum_congr rfl
      intro i hi
      rw [take_drop_getD _ _ _ (Finset.mem_range.mp hi) hbyte]
    rw [hsum]
    ring

/-- Witness for `convert_huffman_spec`: a 1×2 global frame and matching
markov frame with two one-bit codewords. -/
theorem convert_huffman_spec_witness :
    (([[0, 1]] : List (List ℕ)).length = ([[9, 9]] : List (List ℕ)).length) ∧
    ((∀ row ∈ ([[9, 9]] : List (List ℕ)), row.length = 2) ∧
     (∀ row ∈ ([[0, 1]] : List (List ℕ)), row.length = 2)) ∧
    (([[0, 1]] : List (List ℕ)).flatten.length = ([[9, 9]] : List (List ℕ)).length * 2 ∧
     (convert_huffman [[9, 9]] [[0, 1]] [[false], [true]]).length * 8 =
       (([[0, 1]] : List (List ℕ)).flatten.flatMap
         (fun v => ([[false], [true]] : List (List Bool)).getD v [])).length +
         (8 - (([[0, 1]] : List (List ℕ)).flatten.flatMap
           (fun v => ([[false], [true]] : List (List Bool)).getD v [])).length % 8) % 8 ∧
     ∀ k, k < (convert_huffman [[9, 9]] [[0, 1]] [[false], [true]]).length →
       (convert_huffman [[9, 9]] [[0, 1]] [[false], [true]]).getD k 0 =
         ∑ i ∈ Finset.range 8,
           (if (([[0, 1]] : List (List ℕ)).flatten.flatMap
               (fun v => ([[false], [true]] : List (List Bool)).getD v []) ++
               List.replicate
                 ((8 - (([[0, 1]] : List (List ℕ)).flatten.flatMap
                   (fun v => ([[false], [true]] : List (List Bool)).getD v [])).length %
                     8) % 8) false).getD (8 * k + i) false
             then 2 ^ (7 - i) else 0)) :=
  ⟨rfl, ⟨by decide, by decide⟩,
    convert_huffman_spec [[9, 9]] [[0, 1]] [[false], [true]] 2 rfl
      (by decide) (by decide)⟩

end Convert
